import Mathlib

/-!
Verification of the decodable-word-generator core (`word_decoder.py`).

The decoder is embedded shallowly: Python strings become `List Char`,
phoneme symbols become `String`, the module-level rule tables from the
external `utils` module (pronunciation dictionary, affix tables, letter
combinations, sound-category tables) become an explicit `Tables` record,
since the spec treats them as static external input data.  The mutable
instance fields of `WordDecoder` become a `DecodeState` record threaded
through the step functions, and the `while` loop of `decode` becomes a
fuel-based loop whose fuel is the length of the remaining-letters buffer
(the bound the spec itself asserts).
-/

namespace WordDecoderModel

abbrev Phoneme := String

/-- Indicator enum, exactly the seven constructors of the source `Indicator`. -/
inductive Indicator where
  | SHORT_VOWEL
  | LONG_VOWEL
  | HARD_CONSONANT
  | SOFT_CONSONANT
  | LETTER_COMBO
  | SILENT_E
  | UNDECODABLE
deriving DecidableEq, Repr

/-- Static rule tables from the external `utils` module.  Python dicts are
insertion-ordered, so each table is an association list iterated in order. -/
structure Tables where
  simplified_cmudict : List (List Char × List Phoneme)
  prefixes : List (List Char × List (List Phoneme))
  suffixes : List (List Char × List (List Phoneme))
  letter_combinations : List (List Char × List (List Phoneme))
  short_vowels : List (Char × List (List Phoneme))
  long_vowels : List (Char × List (List Phoneme))
  hard_consonants : List (Char × List (List Phoneme))
  soft_consonants : List (Char × List (List Phoneme))
  all_vowel_sounds : List Phoneme
deriving DecidableEq

/-- Association-list lookup, modelling Python dict indexing / membership. -/
def pylookup (d : List (α × β)) (key : α) [DecidableEq α] : Option β :=
  match d with
  | [] => none
  | (k, v) :: rest => if k = key then some v else pylookup rest key

/-- Python `str.lower` on the word. -/
def pyToLower (w : List Char) : List Char := w.map Char.toLower

/-- Python `s.lstrip(chars)`: remove leading characters that belong to the
character SET of `chars` (not the string `chars` itself). -/
def lstrip (s : List Char) (chars : List Char) : List Char :=
  s.dropWhile (fun c => chars.contains c)

/-- Python `s.rstrip(chars)`: remove trailing characters from the set. -/
def rstrip (s : List Char) (chars : List Char) : List Char :=
  (s.reverse.dropWhile (fun c => chars.contains c)).reverse

/-- Python slice `l[-n:]`; note `l[-0:]` is the whole list. -/
def sliceFromNeg (n : Nat) (l : List α) : List α :=
  if n = 0 then l else l.drop (l.length - n)

/-- Python slice `l[:-n]`; note `l[:-0]` is the empty list. -/
def sliceToNeg (n : Nat) (l : List α) : List α :=
  if n = 0 then [] else l.take (l.length - n)

/-- Mutable per-call state of `WordDecoder` (the instance fields mutated
during `decode`). -/
structure DecodeState where
  remaining_letters : List Char
  remaining_sounds : List Phoneme
  letter_parts : List (List Char)
  sound_parts : List (List Phoneme)
  indicators : List Indicator
  decodable : Bool
deriving DecidableEq

def initState (word : List Char) (phon : List Phoneme) : DecodeState :=
  ⟨word, phon, [], [], [], true⟩

/-- Source `WordDecoder.handle_undecodable`. -/
def handle_undecodable (st : DecodeState) : DecodeState :=
  { st with
    decodable := false
    letter_parts := st.letter_parts ++ [st.remaining_letters]
    sound_parts := st.sound_parts ++ [st.remaining_sounds]
    indicators := st.indicators ++ [Indicator.UNDECODABLE]
    remaining_letters := []
    remaining_sounds := [] }

/-- Source `WordDecoder.process_single_letter_sound`. -/
def process_single_letter_sound (st : DecodeState) (letter : Char)
    (sound : List Phoneme) (ind : Indicator) : DecodeState :=
  { st with
    letter_parts := st.letter_parts ++ [[letter]]
    sound_parts := st.sound_parts ++ [sound]
    indicators := st.indicators ++ [ind]
    remaining_letters := st.remaining_letters.drop 1
    remaining_sounds := st.remaining_sounds.drop sound.length }

/-- Accumulated affix output of `process_affixes` (the three local lists). -/
structure AffixAcc where
  parts : List (List Char)
  sounds : List (List Phoneme)
  inds : List Indicator
deriving DecidableEq

/-- Inner loop of `process_affixes`: find the first registered phoneme
variant of one affix entry whose slice of the ORIGINAL word phonemes
matches (`word_phonemes[:n]` at the front, `word_phonemes[-n:]` at the tail). -/
def soundsMatchAt (atFront : Bool) (word_phonemes : List Phoneme)
    (s : List Phoneme) : Bool :=
  if atFront then word_phonemes.take s.length == s
  else sliceFromNeg s.length word_phonemes == s

def findVariant (atFront : Bool) (word_phonemes : List Phoneme) :
    List (List Phoneme) → Option (List Phoneme)
  | [] => none
  | s :: rest =>
    if soundsMatchAt atFront word_phonemes s then some s
    else findVariant atFront word_phonemes rest

/-- State update applied when one affix entry matches: strip its letters
from the remaining-letters buffer with `lstrip`/`rstrip` and slice its
phonemes off the remaining-sounds buffer. -/
def applyAffix (atFront : Bool) (affix : List Char) (s : List Phoneme)
    (st : DecodeState) : DecodeState :=
  { st with
    remaining_letters :=
      if atFront then lstrip st.remaining_letters (affix.filter (fun c => c ≠ '-'))
      else rstrip st.remaining_letters (affix.filter (fun c => c ≠ '-'))
    remaining_sounds :=
      if atFront then st.remaining_sounds.drop s.length
      else sliceToNeg s.length st.remaining_sounds }

/-- Source `WordDecoder.process_affixes`.  Note that the `break` in the
source exits only the inner loop over one entry's phoneme variants; the
outer loop keeps testing every further affix entry against the ORIGINAL
word, so several entries may each match and strip. -/
def process_affixes (affixes : List (List Char × List (List Phoneme)))
    (atFront : Bool) (word : List Char) (word_phonemes : List Phoneme)
    (st : DecodeState) : AffixAcc × DecodeState :=
  match affixes with
  | [] => (⟨[], [], []⟩, st)
  | (affix, affix_sounds) :: rest =>
    let affix_letters := affix.filter (fun c => c ≠ '-')
    let letters_match :=
      if atFront then affix_letters.isPrefixOf word else affix_letters.isSuffixOf word
    match (if letters_match then findVariant atFront word_phonemes affix_sounds else none) with
    | some s =>
      let st' := applyAffix atFront affix s st
      let r := process_affixes rest atFront word word_phonemes st'
      (⟨affix :: r.1.parts, s :: r.1.sounds, Indicator.LETTER_COMBO :: r.1.inds⟩, r.2)
    | none => process_affixes rest atFront word word_phonemes st

/-- First phoneme variant in a list whose length-matching slice of the
remaining sounds is equal (`tuple(remaining_sounds[:len(sound)]) == sound`). -/
def firstSoundMatch (sounds : List (List Phoneme)) (rs : List Phoneme) :
    Option (List Phoneme) :=
  sounds.find? (fun s => rs.take s.length == s)

/-- Outer letter-combination scan of the body loop: first table entry whose
letters match the front of the remaining letters and one of whose phoneme
variants matches the front of the remaining sounds (first-match-wins,
the `for`/`else`/`break` double loop of the source). -/
def findCombo (combos : List (List Char × List (List Phoneme)))
    (rl : List Char) (rs : List Phoneme) : Option (List Char × List Phoneme) :=
  match combos with
  | [] => none
  | (letters, sounds) :: rest =>
    if letters.isPrefixOf rl then
      match firstSoundMatch sounds rs with
      | some s => some (letters, s)
      | none => findCombo rest rl rs
    else findCombo rest rl rs

/-- State update for a matched letter combination. -/
def applyCombo (st : DecodeState) (letters : List Char) (s : List Phoneme) :
    DecodeState :=
  { st with
    letter_parts := st.letter_parts ++ [letters]
    sound_parts := st.sound_parts ++ [s]
    indicators := st.indicators ++ [Indicator.LETTER_COMBO]
    remaining_letters := lstrip st.remaining_letters letters
    remaining_sounds := st.remaining_sounds.drop s.length }

/-- Silent-E guard: no remaining sounds, or the leading remaining sound is
not a vowel sound. -/
def silentCond (t : Tables) (rs : List Phoneme) : Bool :=
  match rs with
  | [] => true
  | s0 :: _ => !t.all_vowel_sounds.contains s0

/-- Python `sound_dict.get(this_letter, [])`. -/
def catLookup (d : List (Char × List (List Phoneme))) (c : Char) :
    List (List Phoneme) :=
  (pylookup d c).getD []

/-- Sound-category scan in the fixed `SOUND_CATEGORIES` insertion order:
SHORT_VOWEL, LONG_VOWEL, HARD_CONSONANT, SOFT_CONSONANT; first category
with a matching variant wins. -/
def findCat4 (t : Tables) (c : Char) (rs : List Phoneme) :
    Option (List Phoneme × Indicator) :=
  match firstSoundMatch (catLookup t.short_vowels c) rs with
  | some s => some (s, Indicator.SHORT_VOWEL)
  | none =>
    match firstSoundMatch (catLookup t.long_vowels c) rs with
    | some s => some (s, Indicator.LONG_VOWEL)
    | none =>
      match firstSoundMatch (catLookup t.hard_consonants c) rs with
      | some s => some (s, Indicator.HARD_CONSONANT)
      | none =>
        match firstSoundMatch (catLookup t.soft_consonants c) rs with
        | some s => some (s, Indicator.SOFT_CONSONANT)
        | none => none

/-- Which branch of the body loop fires on the current state.  In the
silent-E branch the source sets `matched = True` but then still runs the
first iteration of the category loop (only SHORT_VOWEL, after which
`if matched: break` fires) with `this_letter` still bound to the already
consumed `'e'`; the `silentE` payload records that possible second match. -/
inductive BodyAction where
  | combo (letters : List Char) (s : List Phoneme)
  | punct
  | silentE (dbl : Option (List Phoneme))
  | category (c : Char) (s : List Phoneme) (ind : Indicator)
  | undecodable
deriving DecidableEq

def chooseAction (t : Tables) (st : DecodeState) : BodyAction :=
  match findCombo t.letter_combinations st.remaining_letters st.remaining_sounds with
  | some (l, s) => BodyAction.combo l s
  | none =>
    match st.remaining_letters with
    | [] => BodyAction.punct
    | c :: _ =>
      if !c.isAlpha then BodyAction.punct
      else if silentCond t st.remaining_sounds && (c == 'e') then
        BodyAction.silentE (firstSoundMatch (catLookup t.short_vowels c) st.remaining_sounds)
      else
        match findCat4 t c st.remaining_sounds with
        | some (s, ind) => BodyAction.category c s ind
        | none => BodyAction.undecodable

def runAction (_t : Tables) (st : DecodeState) : BodyAction → DecodeState
  | BodyAction.combo l s => applyCombo st l s
  | BodyAction.punct => { st with remaining_letters := st.remaining_letters.drop 1 }
  | BodyAction.silentE dbl =>
    let st1 := process_single_letter_sound st 'e' [] Indicator.SILENT_E
    match dbl with
    | some s => process_single_letter_sound st1 'e' s Indicator.SHORT_VOWEL
    | none => st1
  | BodyAction.category c s ind => process_single_letter_sound st c s ind
  | BodyAction.undecodable => handle_undecodable st

/-- One iteration of the `while len(self.remaining_letters) > 0` loop. -/
def bodyStep (t : Tables) (st : DecodeState) : DecodeState :=
  runAction t st (chooseAction t st)

/-- The body loop, fuelled; the fuel used below is the length of the
remaining-letters buffer, the iteration bound the spec asserts. -/
def decodeLoop (t : Tables) : Nat → DecodeState → DecodeState
  | 0, st => st
  | n + 1, st =>
    if st.remaining_letters = [] then st
    else decodeLoop t n (bodyStep t st)

/-- Final immutable decoding result (`self._decoded`). -/
structure Decoded where
  letter_parts : List (List Char)
  sound_parts : List (List Phoneme)
  indicators : List Indicator
  decodable : Bool
deriving DecidableEq

/-- State right after the two affix-stripping passes, before the body loop. -/
def decodeBodyStart (t : Tables) (word : List Char) (phon : List Phoneme) :
    DecodeState :=
  ((process_affixes t.suffixes false word phon
      ((process_affixes t.prefixes true word phon (initState word phon)).2))).2

def prefixAcc (t : Tables) (word : List Char) (phon : List Phoneme) : AffixAcc :=
  (process_affixes t.prefixes true word phon (initState word phon)).1

def suffixAcc (t : Tables) (word : List Char) (phon : List Phoneme) : AffixAcc :=
  (process_affixes t.suffixes false word phon
    ((process_affixes t.prefixes true word phon (initState word phon)).2)).1

/-- Source `WordDecoder.decode`: affix stripping, the body loop, then the
splice prefix segments ++ body segments ++ suffix segments. -/
def decode (t : Tables) (word : List Char) (phon : List Phoneme) : Decoded :=
  let pre := prefixAcc t word phon
  let suf := suffixAcc t word phon
  let st := decodeLoop t (decodeBodyStart t word phon).remaining_letters.length
    (decodeBodyStart t word phon)
  ⟨pre.parts ++ st.letter_parts ++ suf.parts,
   pre.sounds ++ st.sound_parts ++ suf.sounds,
   pre.inds ++ st.indicators ++ suf.inds,
   st.decodable⟩

inductive DecodeError where
  | wordNotFound
deriving DecidableEq

/-- Source `WordDecoder.__init__`: lowercase the word, fail when it has no
pronunciation entry, otherwise run `decode`. -/
def WordDecoder.run (t : Tables) (w : List Char) : Except DecodeError Decoded :=
  match pylookup t.simplified_cmudict (pyToLower w) with
  | none => Except.error DecodeError.wordNotFound
  | some phon => Except.ok (decode t (pyToLower w) phon)

inductive VcError where
  | keyError
  | consistencyError
deriving DecidableEq

/-- Modelled from the spec: the helper `only_short_vowels` is referenced by
`is_vc`/`is_cvc` but its definition is not among the available source files;
following the spec's words ("unless long vowels are permitted, the vowel
must specifically be a short-vowel sound"), a word passes when every vowel
sound of its pronunciation is a short-vowel sound, with the vowel-sound and
short-vowel-sound classifiers supplied as external predicates. -/
def only_short_vowels (t : Tables) (isVowelSound isShortVowelSound : Phoneme → Bool)
    (word : List Char) : Bool :=
  ((pylookup t.simplified_cmudict word).getD []).all
    (fun s => !isVowelSound s || isShortVowelSound s)

/-- Source `WordDecoder.is_vc`.  The vowel-sound/vowel-letter classifiers
(`is_vowel_sound`, `is_vowel`) are external collaborators per the spec and
are passed as predicates; the direct dictionary indexing raises `KeyError`
for an unknown word. -/
def is_vc (t : Tables) (isVowelSound isShortVowelSound : Phoneme → Bool)
    (isVowelLetter : Char → Bool) (word : List Char)
    (allowed_blends_and_digraphs : List (List Char))
    (include_long_vowels : Bool) : Except VcError Bool :=
  match pylookup t.simplified_cmudict word with
  | none => Except.error VcError.keyError
  | some sounds =>
    match sounds with
    | [s0, s1] =>
      if !isVowelSound s0 || isVowelSound s1 then Except.ok false
      else if !include_long_vowels
          && !(only_short_vowels t isVowelSound isShortVowelSound word) then
        Except.ok false
      else
        let consonant_part := word.drop 1
        if consonant_part.any isVowelLetter then Except.error VcError.consistencyError
        else Except.ok (consonant_part.length == 1
          || allowed_blends_and_digraphs.contains consonant_part)
    | _ => Except.ok false

/-- The trailing statement of the source `is_cvc` (a three-letter
consonant-vowel-consonant shape test), which sits after a `return` and can
never execute. -/
def cvc_shape_check (isVowelLetter : Char → Bool) (word : List Char) : Bool :=
  match word with
  | [a, b, c] => !isVowelLetter a && isVowelLetter b && !isVowelLetter c
  | _ => false

/-- Source `WordDecoder.is_cvc`: its body is a byte-for-byte duplicate of
`is_vc`'s, followed by one extra `return` of the three-letter shape check;
sequential `return`s mean the first one produced is the value, so the
trailing check (`_dead` below) never flows into the result. -/
def is_cvc (t : Tables) (isVowelSound isShortVowelSound : Phoneme → Bool)
    (isVowelLetter : Char → Bool) (word : List Char)
    (allowed_blends_and_digraphs : List (List Char))
    (include_long_vowels : Bool) : Except VcError Bool :=
  match pylookup t.simplified_cmudict word with
  | none => Except.error VcError.keyError
  | some sounds =>
    match sounds with
    | [s0, s1] =>
      if !isVowelSound s0 || isVowelSound s1 then Except.ok false
      else if !include_long_vowels
          && !(only_short_vowels t isVowelSound isShortVowelSound word) then
        Except.ok false
      else
        let consonant_part := word.drop 1
        if consonant_part.any isVowelLetter then Except.error VcError.consistencyError
        else
          let r1 : Except VcError Bool := Except.ok (consonant_part.length == 1
            || allowed_blends_and_digraphs.contains consonant_part)
          let _dead : Except VcError Bool :=
            Except.ok (cvc_shape_check isVowelLetter word)
          r1
    | _ => Except.ok false

/-- Decidable relation behind the letters round-trip claim: `erasesNA full
out` holds when `out` is obtained from `full` by deleting only
non-alphabetic characters. -/
def erasesNA : List Char → List Char → Bool
  | [], [] => true
  | [], _ :: _ => false
  | c :: full, [] => !c.isAlpha && erasesNA full []
  | c :: full, d :: out =>
    (c == d && erasesNA full out) || (!c.isAlpha && erasesNA full (d :: out))

/-- Per-iteration cleanliness condition for the letters round-trip: a
matched letter combination must be non-empty and its `lstrip` must remove
exactly the pattern's length (the character-set semantics can remove
more), and a silent-E match must not be followed by the duplicated
short-vowel re-match of the already consumed `'e'`. -/
def stepOk (t : Tables) (st : DecodeState) : Bool :=
  match chooseAction t st with
  | BodyAction.combo l _ =>
    !l.isEmpty
      && ((lstrip st.remaining_letters l).length + l.length == st.remaining_letters.length)
  | BodyAction.silentE dbl => dbl.isNone
  | _ => true

/-- `stepOk` checked along the whole body loop. -/
def loopOk (t : Tables) : Nat → DecodeState → Bool
  | 0, _ => true
  | n + 1, st =>
    if st.remaining_letters = [] then true
    else stepOk t st && loopOk t n (bodyStep t st)

/-- Cleanliness condition for one affix-stripping pass: every applied
affix entry is hyphen-free and its strip removes exactly the affix's
length from the remaining-letters buffer. -/
def affixStripOk (affixes : List (List Char × List (List Phoneme)))
    (atFront : Bool) (word : List Char) (word_phonemes : List Phoneme)
    (st : DecodeState) : Bool :=
  match affixes with
  | [] => true
  | (affix, affix_sounds) :: rest =>
    let affix_letters := affix.filter (fun c => c ≠ '-')
    let letters_match :=
      if atFront then affix_letters.isPrefixOf word else affix_letters.isSuffixOf word
    match (if letters_match then findVariant atFront word_phonemes affix_sounds else none) with
    | some s =>
      let st' := applyAffix atFront affix s st
      (affix.all (fun c => c ≠ '-'))
        && (st'.remaining_letters.length + affix.length == st.remaining_letters.length)
        && affixStripOk rest atFront word word_phonemes st'
    | none => affixStripOk rest atFront word word_phonemes st

/-! Concrete table instances used for counterexamples and witnesses. -/

def emptyTables : Tables :=
  ⟨[], [], [], [], [], [], [], [], []⟩

/-- Tables exhibiting the `lstrip` character-set bug: the combination
`"bb"` matched against the word `"bbb"` strips all three `b`s. -/
def tablesBBB : Tables :=
  { emptyTables with
    simplified_cmudict := [(['b', 'b', 'b'], ["B"])]
    letter_combinations := [(['b', 'b'], [["B"]])] }

/-- Tables with two prefix entries that both match the word `"und"`. -/
def tablesUND : Tables :=
  { emptyTables with
    simplified_cmudict := [(['u', 'n', 'd'], ["AH", "N", "D"])]
    prefixes := [(['u', 'n'], [["AH", "N"]]), (['u'], [["AH"]])] }

/-- Tables where the word `"te"` with phonemes `[T, B]` decodes fully
(decodable stays true) yet leaves the phoneme `B` unconsumed: the final
silent E consumes the letter `e` and zero phonemes. -/
def tablesTE : Tables :=
  { emptyTables with
    simplified_cmudict := [(['t', 'e'], ["T", "B"])]
    hard_consonants := [('t', [["T"]])]
    all_vowel_sounds := ["AE"] }

/-- Straightforward tables decoding the word `"bat"` exactly. -/
def tablesBAT : Tables :=
  { emptyTables with
    simplified_cmudict := [(['b', 'a', 't'], ["B", "AE", "T"])]
    short_vowels := [('a', [["AE"]])]
    hard_consonants := [('b', [["B"]]), ('t', [["T"]])]
    all_vowel_sounds := ["AE"] }

/-- Tables where the word `"q"` is immediately undecodable. -/
def tablesQ : Tables :=
  { emptyTables with simplified_cmudict := [(['q'], ["K"])] }

/-- Dictionary for the classifier claims: `"at"` is a clean VC word,
`"ea"` has a second vowel letter, `"aaa"` has three phonemes. -/
def tablesVC : Tables :=
  { emptyTables with
    simplified_cmudict :=
      [(['a', 't'], ["AE", "T"]),
       (['e', 'a'], ["AE", "T"]),
       (['a', 'a', 'a'], ["AE", "T", "K"])] }

/-- Example vowel-sound classifier. -/
def exVowelSound : Phoneme → Bool := fun p => p == "AE" || p == "IY"

/-- Example short-vowel-sound classifier. -/
def exShortVowelSound : Phoneme → Bool := fun p => p == "AE"

/-- Example vowel-letter classifier. -/
def exVowelLetter : Char → Bool := fun c =>
  c == 'a' || c == 'e' || c == 'i' || c == 'o' || c == 'u'

/-! Helper lemmas. -/

theorem lstrip_suffix (s chars : List Char) : lstrip s chars <:+ s :=
  List.dropWhile_suffix _

theorem lstrip_eq_drop (s chars : List Char) :
    lstrip s chars = s.drop (s.length - (lstrip s chars).length) :=
  List.suffix_iff_eq_drop.mp (lstrip_suffix s chars)

theorem lstrip_exact (s pat : List Char) (hpre : pat <+: s)
    (hlen : (lstrip s pat).length + pat.length = s.length) :
    lstrip s pat = s.drop pat.length := by
  have hle : (lstrip s pat).length ≤ s.length := (lstrip_suffix s pat).length_le
  have h := lstrip_eq_drop s pat
  have hpl : pat.length ≤ s.length := hpre.length_le
  have : s.length - (lstrip s pat).length = pat.length := by omega
  rw [this] at h
  exact h

theorem rstrip_eq_take (s chars : List Char) :
    ∃ k, k ≤ s.length ∧ rstrip s chars = s.take (s.length - k) := by
  unfold rstrip
  have hsuf : s.reverse.dropWhile (fun c => chars.contains c) <:+ s.reverse :=
    List.dropWhile_suffix _
  have hle : (s.reverse.dropWhile (fun c => chars.contains c)).length ≤ s.length := by
    have := hsuf.length_le
    simpa using this
  have hdrop := List.suffix_iff_eq_drop.mp hsuf
  refine ⟨s.length - (s.reverse.dropWhile (fun c => chars.contains c)).length, by omega, ?_⟩
  rw [hdrop, List.reverse_drop]
  simp
  congr 1
  omega

theorem rstrip_exact (s chars : List Char) (n : Nat) (_hn : n ≤ s.length)
    (hlen : (rstrip s chars).length + n = s.length) :
    rstrip s chars = s.take (s.length - n) := by
  obtain ⟨k, hk, heq⟩ := rstrip_eq_take s chars
  have hlen' : (s.take (s.length - k)).length = s.length - k := by
    simp
  rw [heq] at hlen ⊢
  rw [hlen'] at hlen
  have : k = n := by omega
  rw [this]

theorem firstSoundMatch_sound (ss : List (List Phoneme)) (rs : List Phoneme)
    (s : List Phoneme) (h : firstSoundMatch ss rs = some s) :
    rs.take s.length = s ∧ s ∈ ss := by
  unfold firstSoundMatch at h
  have hp := List.find?_some h
  simp only [beq_iff_eq] at hp
  exact ⟨hp, List.mem_of_find?_eq_some h⟩

theorem soundsMatchAt_front (ph s : List Phoneme)
    (h : soundsMatchAt true ph s = true) : ph.take s.length = s := by
  unfold soundsMatchAt at h
  simpa using h

theorem soundsMatchAt_back (ph s : List Phoneme)
    (h : soundsMatchAt false ph s = true) : sliceFromNeg s.length ph = s := by
  unfold soundsMatchAt at h
  simpa using h

theorem findVariant_sound (atFront : Bool) (ph : List Phoneme)
    (ss : List (List Phoneme)) (s : List Phoneme)
    (h : findVariant atFront ph ss = some s) :
    soundsMatchAt atFront ph s = true ∧ s ∈ ss := by
  induction ss with
  | nil => simp [findVariant] at h
  | cons a rest ih =>
    unfold findVariant at h
    split at h
    · next hc =>
      cases h
      exact ⟨hc, List.mem_cons_self _ _⟩
    · obtain ⟨h1, h2⟩ := ih h
      exact ⟨h1, List.mem_cons_of_mem a h2⟩

theorem findCombo_sound (combos : List (List Char × List (List Phoneme)))
    (rl : List Char) (rs : List Phoneme) (l : List Char) (s : List Phoneme)
    (h : findCombo combos rl rs = some (l, s)) :
    l <+: rl ∧ rs.take s.length = s ∧ ∃ vs, (l, vs) ∈ combos := by
  induction combos with
  | nil => simp [findCombo] at h
  | cons a rest ih =>
    obtain ⟨letters, sounds⟩ := a
    unfold findCombo at h
    split at h
    next hpre =>
      cases hfs : firstSoundMatch sounds rs with
      | some s' =>
        rw [hfs] at h
        cases h
        obtain ⟨h1, _⟩ := firstSoundMatch_sound _ _ _ hfs
        exact ⟨List.isPrefixOf_iff_prefix.mp hpre, h1, sounds, List.mem_cons_self _ _⟩
      | none =>
        rw [hfs] at h
        obtain ⟨h1, h2, vs, h3⟩ := ih h
        exact ⟨h1, h2, vs, List.mem_cons_of_mem _ h3⟩
    next =>
      obtain ⟨h1, h2, vs, h3⟩ := ih h
      exact ⟨h1, h2, vs, List.mem_cons_of_mem _ h3⟩

theorem findCat4_sound (t : Tables) (c : Char) (rs : List Phoneme)
    (s : List Phoneme) (i : Indicator) (h : findCat4 t c rs = some (s, i)) :
    rs.take s.length = s ∧ i ≠ Indicator.UNDECODABLE ∧ i ≠ Indicator.LETTER_COMBO := by
  unfold findCat4 at h
  repeat' split at h
  all_goals first
    | (cases h
       next hm =>
         obtain ⟨h1, _⟩ := firstSoundMatch_sound _ _ _ hm
         exact ⟨h1, by simp, by simp⟩)
    | cases h

theorem chooseAction_combo (t : Tables) (st : DecodeState) (l : List Char)
    (s : List Phoneme) (h : chooseAction t st = BodyAction.combo l s) :
    findCombo t.letter_combinations st.remaining_letters st.remaining_sounds = some (l, s) := by
  unfold chooseAction at h
  split at h
  · next heq => cases h; exact heq
  · split at h
    · cases h
    · split at h
      · cases h
      · split at h
        · cases h
        · split at h <;> cases h

theorem chooseAction_punct (t : Tables) (st : DecodeState)
    (hne : st.remaining_letters ≠ [])
    (h : chooseAction t st = BodyAction.punct) :
    ∃ c tl, st.remaining_letters = c :: tl ∧ c.isAlpha = false := by
  unfold chooseAction at h
  split at h
  · cases h
  · split at h
    · next heq => exact absurd heq hne
    · next c tl heq =>
      split at h
      · next halpha =>
        refine ⟨c, tl, heq, ?_⟩
        simpa using halpha
      · split at h
        · cases h
        · split at h <;> cases h

theorem chooseAction_silentE (t : Tables) (st : DecodeState)
    (dbl : Option (List Phoneme))
    (h : chooseAction t st = BodyAction.silentE dbl) :
    ∃ tl, st.remaining_letters = 'e' :: tl
      ∧ dbl = firstSoundMatch (catLookup t.short_vowels 'e') st.remaining_sounds := by
  unfold chooseAction at h
  split at h
  · cases h
  · split at h
    · cases h
    · next c tl heq =>
      split at h
      · cases h
      · split at h
        · next hcond =>
          cases h
          have hc : c = 'e' := by
            have := (Bool.and_eq_true _ _).mp hcond |>.2
            simpa using this
          subst hc
          exact ⟨tl, heq, rfl⟩
        · split at h <;> cases h

theorem chooseAction_category (t : Tables) (st : DecodeState) (c : Char)
    (s : List Phoneme) (i : Indicator)
    (h : chooseAction t st = BodyAction.category c s i) :
    (∃ tl, st.remaining_letters = c :: tl)
      ∧ findCat4 t c st.remaining_sounds = some (s, i) := by
  unfold chooseAction at h
  split at h
  · cases h
  · split at h
    · cases h
    · next c' tl heq =>
      split at h
      · cases h
      · split at h
        · cases h
        · split at h
          · next heq2 => cases h; exact ⟨⟨tl, heq⟩, heq2⟩
          · cases h

theorem chooseAction_undec (t : Tables) (st : DecodeState)
    (hne : st.remaining_letters ≠ [])
    (h : chooseAction t st = BodyAction.undecodable) :
    ∃ c tl, st.remaining_letters = c :: tl ∧ c.isAlpha = true := by
  unfold chooseAction at h
  split at h
  · cases h
  · split at h
    · next heq => exact absurd heq hne
    · next c tl heq =>
      split at h
      · next halpha =>
        cases h
      · next halpha =>
        split at h
        · cases h
        · split at h
          · cases h
          · exact ⟨c, tl, heq, by simpa using halpha⟩

theorem lstrip_length_lt (rl pat : List Char) (hne : pat ≠ []) (hpre : pat <+: rl) :
    (lstrip rl pat).length < rl.length := by
  obtain ⟨c, pt, rfl⟩ := List.exists_cons_of_ne_nil hne
  obtain ⟨t, rfl⟩ := hpre
  unfold lstrip
  rw [List.cons_append, List.dropWhile_cons_of_pos (by simp)]
  have h1 : ((pt ++ t).dropWhile (fun x => (c :: pt).contains x)).length ≤ (pt ++ t).length :=
    (List.dropWhile_suffix _).length_le
  simp only [List.length_cons, List.length_append] at h1 ⊢
  omega

/-- Case-analysis combinator for one body-loop iteration. -/
theorem bodyStep_cases (t : Tables) (st : DecodeState)
    (hne : st.remaining_letters ≠ []) (P : DecodeState → Prop)
    (hcombo : ∀ l s, findCombo t.letter_combinations st.remaining_letters st.remaining_sounds
      = some (l, s) → P (applyCombo st l s))
    (hpunct : ∀ c tl, st.remaining_letters = c :: tl → c.isAlpha = false →
      P { st with remaining_letters := st.remaining_letters.drop 1 })
    (hsil : ∀ tl, st.remaining_letters = 'e' :: tl →
      P (runAction t st (BodyAction.silentE
        (firstSoundMatch (catLookup t.short_vowels 'e') st.remaining_sounds))))
    (hcat : ∀ c s i tl, st.remaining_letters = c :: tl →
      findCat4 t c st.remaining_sounds = some (s, i) →
      P (process_single_letter_sound st c s i))
    (hundec : P (handle_undecodable st)) :
    P (bodyStep t st) := by
  unfold bodyStep
  cases hA : chooseAction t st with
  | combo l s =>
    have := chooseAction_combo t st l s hA
    exact hcombo l s this
  | punct =>
    obtain ⟨c, tl, heq, hal⟩ := chooseAction_punct t st hne hA
    have : runAction t st BodyAction.punct
        = { st with remaining_letters := st.remaining_letters.drop 1 } := rfl
    rw [this]
    exact hpunct c tl heq hal
  | silentE dbl =>
    obtain ⟨tl, heq, hdbl⟩ := chooseAction_silentE t st dbl hA
    rw [hdbl]
    exact hsil tl heq
  | category c s i =>
    obtain ⟨⟨tl, heq⟩, hcatEq⟩ := chooseAction_category t st c s i hA
    have : runAction t st (BodyAction.category c s i)
        = process_single_letter_sound st c s i := rfl
    rw [this]
    exact hcat c s i tl heq hcatEq
  | undecodable =>
    have : runAction t st BodyAction.undecodable = handle_undecodable st := rfl
    rw [this]
    exact hundec

theorem decodeLoop_nil (t : Tables) (n : Nat) (st : DecodeState)
    (h : st.remaining_letters = []) : decodeLoop t n st = st := by
  cases n with
  | zero => rfl
  | succ n => simp [decodeLoop, h]

theorem process_single_remaining (st : DecodeState) (c : Char)
    (s : List Phoneme) (i : Indicator) :
    (process_single_letter_sound st c s i).remaining_letters
      = st.remaining_letters.drop 1 := rfl

theorem bodyStep_shrinks (t : Tables) (st : DecodeState)
    (hne : st.remaining_letters ≠ [])
    (hcombo : ∀ p ∈ t.letter_combinations, p.1 ≠ []) :
    (bodyStep t st).remaining_letters.length < st.remaining_letters.length := by
  refine bodyStep_cases t st hne
    (fun st' => st'.remaining_letters.length < st.remaining_letters.length)
    ?_ ?_ ?_ ?_ ?_
  · intro l s hfind
    obtain ⟨hpre, _, vs, hmem⟩ := findCombo_sound _ _ _ _ _ hfind
    have hlne : l ≠ [] := hcombo (l, vs) hmem
    have : (applyCombo st l s).remaining_letters = lstrip st.remaining_letters l := rfl
    rw [this]
    exact lstrip_length_lt _ _ hlne hpre
  · intro c tl heq _
    simp only [heq]
    simp
  · intro tl heq
    cases hd : firstSoundMatch (catLookup t.short_vowels 'e') st.remaining_sounds with
    | none =>
      show (runAction t st (BodyAction.silentE none)).remaining_letters.length
        < st.remaining_letters.length
      have h2 : (runAction t st (BodyAction.silentE none)).remaining_letters
          = st.remaining_letters.drop 1 := rfl
      rw [h2, heq]
      simp
    | some s =>
      show (runAction t st (BodyAction.silentE (some s))).remaining_letters.length
        < st.remaining_letters.length
      have h2 : (runAction t st (BodyAction.silentE (some s))).remaining_letters
          = (st.remaining_letters.drop 1).drop 1 := rfl
      rw [h2, heq]
      simp
      omega
  · intro c s i tl heq _
    show (process_single_letter_sound st c s i).remaining_letters.length
      < st.remaining_letters.length
    rw [process_single_remaining, heq]
    simp
  · show (handle_undecodable st).remaining_letters.length < st.remaining_letters.length
    have h2 : (handle_undecodable st).remaining_letters = [] := rfl
    rw [h2]
    simp
    exact List.length_pos.mpr hne

/-- Under the assumption that every letter-combination pattern is
non-empty, fuel equal to the remaining letter count empties the buffer:
the body loop terminates within that many iterations. -/
theorem decodeLoop_empties (t : Tables)
    (hcombo : ∀ p ∈ t.letter_combinations, p.1 ≠ []) :
    ∀ n st, st.remaining_letters.length ≤ n →
      (decodeLoop t n st).remaining_letters = [] := by
  intro n
  induction n with
  | zero =>
    intro st h
    have : st.remaining_letters = [] := List.length_eq_zero.mp (Nat.le_zero.mp h)
    rw [decodeLoop_nil t 0 st this]
    exact this
  | succ n ih =>
    intro st h
    by_cases hnil : st.remaining_letters = []
    · rw [decodeLoop_nil t _ st hnil]
      exact hnil
    · have hstep := bodyStep_shrinks t st hnil hcombo
      have : decodeLoop t (n + 1) st = decodeLoop t n (bodyStep t st) := by
        simp [decodeLoop, hnil]
      rw [this]
      exact ih _ (by omega)

theorem applyAffix_length_le (atFront : Bool) (affix : List Char)
    (s : List Phoneme) (st : DecodeState) :
    (applyAffix atFront affix s st).remaining_letters.length
      ≤ st.remaining_letters.length := by
  have hl := (lstrip_suffix st.remaining_letters (affix.filter (fun c => c ≠ '-'))).length_le
  obtain ⟨k, hk, heq⟩ := rstrip_eq_take st.remaining_letters (affix.filter (fun c => c ≠ '-'))
  have hr : (rstrip st.remaining_letters (affix.filter (fun c => c ≠ '-'))).length
      ≤ st.remaining_letters.length := by
    rw [heq]
    simp
  unfold applyAffix
  cases atFront with
  | true => simpa using hl
  | false => simpa using hr

theorem process_affixes_length_le (affixes : List (List Char × List (List Phoneme)))
    (atFront : Bool) (word : List Char) (ph : List Phoneme) (st : DecodeState) :
    (process_affixes affixes atFront word ph st).2.remaining_letters.length
      ≤ st.remaining_letters.length := by
  induction affixes generalizing st with
  | nil => exact Nat.le_refl _
  | cons a rest ih =>
    obtain ⟨affix, affix_sounds⟩ := a
    unfold process_affixes
    cases hv : (if (if atFront then (affix.filter (fun c => c ≠ '-')).isPrefixOf word
        else (affix.filter (fun c => c ≠ '-')).isSuffixOf word)
        then findVariant atFront ph affix_sounds else none) with
    | some s =>
      simp only [hv]
      exact Nat.le_trans (ih _) (applyAffix_length_le _ _ _ _)
    | none =>
      simp only [hv]
      exact ih st

/-- Full characterization of one affix-stripping pass: there is a list
`ms` of applied (affix, sound) matches, one per matching table entry, in
table order; the accumulator records exactly those matches (all tagged
LETTER_COMBO) and the final state folds `applyAffix` over them; every
match satisfies the letters test against the original word and the
phoneme-slice test against the original word phonemes. -/
theorem process_affixes_spec (affixes : List (List Char × List (List Phoneme)))
    (atFront : Bool) (word : List Char) (ph : List Phoneme) :
    ∀ st, ∃ ms : List (List Char × List Phoneme),
      (process_affixes affixes atFront word ph st).1.parts = ms.map Prod.fst ∧
      (process_affixes affixes atFront word ph st).1.sounds = ms.map Prod.snd ∧
      (process_affixes affixes atFront word ph st).1.inds
        = ms.map (fun _ => Indicator.LETTER_COMBO) ∧
      (process_affixes affixes atFront word ph st).2
        = ms.foldl (fun s m => applyAffix atFront m.1 m.2 s) st ∧
      ms.length ≤ affixes.length ∧
      ∀ m ∈ ms, soundsMatchAt atFront ph m.2 = true ∧
        (atFront = true → (m.1.filter (fun c => c ≠ '-')) <+: word) ∧
        (atFront = false → (m.1.filter (fun c => c ≠ '-')) <:+ word) := by
  induction affixes with
  | nil =>
    intro st
    exact ⟨[], rfl, rfl, rfl, rfl, by simp, by simp⟩
  | cons a rest ih =>
    intro st
    obtain ⟨affix, affix_sounds⟩ := a
    unfold process_affixes
    cases hv : (if (if atFront then (affix.filter (fun c => c ≠ '-')).isPrefixOf word
        else (affix.filter (fun c => c ≠ '-')).isSuffixOf word)
        then findVariant atFront ph affix_sounds else none) with
    | some s =>
      simp only [hv]
      obtain ⟨ms, h1, h2, h3, h4, h5, h6⟩ := ih (applyAffix atFront affix s st)
      refine ⟨(affix, s) :: ms, by simpa using h1, by simpa using h2,
        by simpa using h3, by simpa using h4,
        by simp only [List.length_cons]; omega, ?_⟩
      intro m hm
      cases hm with
      | head =>
        have hlm : (if atFront then (affix.filter (fun c => c ≠ '-')).isPrefixOf word
            else (affix.filter (fun c => c ≠ '-')).isSuffixOf word) = true := by
          by_contra hc
          rw [if_neg (by simpa using hc)] at hv
          cases hv
        rw [if_pos hlm] at hv
        obtain ⟨hsm, _⟩ := findVariant_sound atFront ph affix_sounds s hv
        refine ⟨hsm, ?_, ?_⟩
        · intro hf
          rw [hf] at hlm
          simp only [if_pos rfl] at hlm
          exact List.isPrefixOf_iff_prefix.mp hlm
        · intro hf
          rw [hf] at hlm
          simp at hlm
          simpa using hlm
      | tail _ hm' => exact h6 m hm'
    | none =>
      simp only [hv]
      obtain ⟨ms, h1, h2, h3, h4, h5, h6⟩ := ih st
      exact ⟨ms, h1, h2, h3, h4, by simp only [List.length_cons]; omega, h6⟩

/-! Claim theorems: C2, C3, C8, C9, C10. -/

/-- C3: for every table instance, every word, every allowed-blends set and
every long-vowel flag, `is_cvc` produces exactly the same outcome (same
boolean result or same raised error) as `is_vc`: the two source bodies are
duplicates, and the trailing three-letter shape check of `is_cvc`
(`cvc_shape_check`, bound to the dead `_dead` value in its body) sits after
a `return`, so it cannot flow into the result. -/
theorem c3_is_cvc_equals_is_vc (t : Tables) (ivs isv : Phoneme → Bool)
    (ivl : Char → Bool) (word : List Char) (abd : List (List Char)) (ilv : Bool) :
    is_cvc t ivs isv ivl word abd ilv = is_vc t ivs isv ivl word abd ilv := rfl

/-- C8: constructing the decoder fails with the unknown-word error exactly
when the lowercased word has no pronunciation entry, and produces a
(complete) `Decoded` value exactly when it has one; no partial result
exists in the error case. -/
theorem c8_unknown_word_fatal (t : Tables) (w : List Char) :
    (WordDecoder.run t w = Except.error DecodeError.wordNotFound
      ↔ pylookup t.simplified_cmudict (pyToLower w) = none)
    ∧ ((∃ d, WordDecoder.run t w = Except.ok d)
      ↔ ∃ ph, pylookup t.simplified_cmudict (pyToLower w) = some ph) := by
  unfold WordDecoder.run
  cases h : pylookup t.simplified_cmudict (pyToLower w) with
  | none => simp
  | some ph => simp

/-- C10: every segment produced by affix stripping carries the
LETTER_COMBO indicator, and the `Indicator` tag set contains only the
seven listed constructors — no dedicated prefix or suffix indicator
exists, so affix segments are indistinguishable from body
letter-combination segments by indicator alone. -/
theorem c10_affix_indicator_letter_combo
    (affixes : List (List Char × List (List Phoneme))) (atFront : Bool)
    (word : List Char) (ph : List Phoneme) (st : DecodeState) :
    ((process_affixes affixes atFront word ph st).1.inds.all
      (fun i => i == Indicator.LETTER_COMBO)) = true
    ∧ ∀ i : Indicator,
        i = Indicator.SHORT_VOWEL ∨ i = Indicator.LONG_VOWEL
        ∨ i = Indicator.HARD_CONSONANT ∨ i = Indicator.SOFT_CONSONANT
        ∨ i = Indicator.LETTER_COMBO ∨ i = Indicator.SILENT_E
        ∨ i = Indicator.UNDECODABLE := by
  constructor
  · obtain ⟨ms, _, _, h3, _, _, _⟩ := process_affixes_spec affixes atFront word ph st
    rw [h3]
    simp
  · intro i
    cases i <;> simp

/-- C2 counterexample: with a prefix table holding the entries `"un"` and
`"u"` (in that order), both matching the word `"und"` on letters and
phonemes, BOTH prefixes are stripped: the `break` exits only the inner
loop over one entry's phoneme variants, so further prefix entries are
still tried, refuting "no further prefix-table entries are tried". -/
theorem c2_counterexample :
    (process_affixes tablesUND.prefixes true ['u', 'n', 'd'] ["AH", "N", "D"]
      (initState ['u', 'n', 'd'] ["AH", "N", "D"])).1.parts
      = [['u', 'n'], ['u']] := by rfl

/-- C2 amended: at most one phoneme VARIANT per affix entry is applied
(so the affix output has at most one segment per table entry), but every
affix entry in table order is tested against the original word and each
match strips again. -/
theorem c2_amended_one_variant_per_entry
    (affixes : List (List Char × List (List Phoneme))) (atFront : Bool)
    (word : List Char) (ph : List Phoneme) (st : DecodeState) :
    ((process_affixes affixes atFront word ph st).1.parts).length
      ≤ affixes.length := by
  obtain ⟨ms, h1, _, _, _, h5, _⟩ := process_affixes_spec affixes atFront word ph st
  rw [h1]
  simpa using h5

/-- C9: for every word and table instance whose letter-combination
patterns are non-empty strings, the body loop of `decode` terminates: run
with fuel equal to the remaining letter count (each iteration strictly
shrinks the buffer or empties it via the undecodable branch), it empties
the remaining-letters buffer, and that fuel is at most the word's letter
count. -/
theorem c9_decode_terminates (t : Tables) (w : List Char) (phon : List Phoneme)
    (hcombo : ∀ p ∈ t.letter_combinations, p.1 ≠ []) :
    (decodeLoop t (decodeBodyStart t w phon).remaining_letters.length
      (decodeBodyStart t w phon)).remaining_letters = []
    ∧ (decodeBodyStart t w phon).remaining_letters.length ≤ w.length := by
  constructor
  · exact decodeLoop_empties t hcombo _ _ (Nat.le_refl _)
  · unfold decodeBodyStart
    refine Nat.le_trans (process_affixes_length_le _ _ _ _ _) ?_
    refine Nat.le_trans (process_affixes_length_le _ _ _ _ _) ?_
    exact Nat.le_refl _

/-- C9 witness: the hypothesis and conclusion instantiated at the concrete
tables decoding `"bat"`. -/
theorem c9_witness :
    (decodeLoop tablesBAT
      (decodeBodyStart tablesBAT ['b', 'a', 't'] ["B", "AE", "T"]).remaining_letters.length
      (decodeBodyStart tablesBAT ['b', 'a', 't'] ["B", "AE", "T"])).remaining_letters = []
    ∧ (decodeBodyStart tablesBAT ['b', 'a', 't'] ["B", "AE", "T"]).remaining_letters.length
      ≤ (['b', 'a', 't'] : List Char).length :=
  c9_decode_terminates tablesBAT ['b', 'a', 't'] ["B", "AE", "T"] (by decide)

/-! Claim theorems: C5, C6. -/

/-- C5 counterexample: the word `"ea"` satisfies every condition of the
claim (two phonemes, first a short vowel sound, second not a vowel sound,
letters after the first form a single letter), yet `is_vc` does not
return true — it raises the consistency error, because the letter after
the first is itself a vowel letter. -/
theorem c5_counterexample :
    is_vc tablesVC exVowelSound exShortVowelSound exVowelLetter
      ['e', 'a'] [] false = Except.error VcError.consistencyError
    ∧ pylookup tablesVC.simplified_cmudict ['e', 'a'] = some ["AE", "T"]
    ∧ exVowelSound "AE" = true ∧ exVowelSound "T" = false
    ∧ exShortVowelSound "AE" = true
    ∧ ((['e', 'a'] : List Char).drop 1).length = 1 :=
  ⟨rfl, rfl, rfl, rfl, rfl, rfl⟩

/-- C5 amended: for a dictionary-known word, `is_vc` returns true iff the
word has exactly two phonemes with the first a vowel sound and the second
not, the first is a short-vowel sound unless long vowels are permitted,
no letter after the first is a vowel letter (otherwise the consistency
error is raised instead of any boolean), and the letters after the first
form a single letter or an allowed blend/digraph. -/
theorem c5_amended_is_vc_iff (t : Tables) (ivs isv : Phoneme → Bool)
    (ivl : Char → Bool) (w : List Char) (abd : List (List Char)) (ilv : Bool)
    (sounds : List Phoneme)
    (h : pylookup t.simplified_cmudict w = some sounds) :
    is_vc t ivs isv ivl w abd ilv = Except.ok true
      ↔ ∃ s0 s1, sounds = [s0, s1] ∧ ivs s0 = true ∧ ivs s1 = false
        ∧ (ilv = true ∨ isv s0 = true)
        ∧ (w.drop 1).any ivl = false
        ∧ ((w.drop 1).length = 1 ∨ (w.drop 1) ∈ abd) := by
  unfold is_vc only_short_vowels
  rw [h]
  rcases sounds with _ | ⟨s0, _ | ⟨s1, _ | ⟨s2, rest⟩⟩⟩
  · simp
  · simp
  · simp only [Option.getD_some, List.all_cons, List.all_nil]
    cases h0 : ivs s0 <;> cases h1 : ivs s1 <;> cases hilv : ilv <;>
      cases hisv : isv s0 <;> cases hany : (w.drop 1).any ivl <;>
        simp [h0, h1, hilv, hisv, hany] <;> aesop
  · simp

/-- C5 witness: the word `"at"` with phonemes (short vowel, consonant)
and letters one vowel letter + one consonant letter is accepted. -/
theorem c5_witness :
    is_vc tablesVC exVowelSound exShortVowelSound exVowelLetter
      ['a', 't'] [] false = Except.ok true :=
  (c5_amended_is_vc_iff tablesVC exVowelSound exShortVowelSound exVowelLetter
      ['a', 't'] [] false ["AE", "T"] rfl).mpr
    ⟨"AE", "T", rfl, rfl, rfl, Or.inr rfl, rfl, Or.inl rfl⟩

/-- C6 counterexample: the word `"aaa"` has vowel letters after the first
letter, yet `is_vc` and `is_cvc` return the normal boolean `false` (its
three phonemes fail the earlier shape check, which runs BEFORE the
vowel-letter consistency check), refuting "for every dictionary-known
word with a vowel letter after the first, a consistency error is
raised". -/
theorem c6_counterexample :
    is_vc tablesVC exVowelSound exShortVowelSound exVowelLetter
      ['a', 'a', 'a'] [] false = Except.ok false
    ∧ is_cvc tablesVC exVowelSound exShortVowelSound exVowelLetter
      ['a', 'a', 'a'] [] false = Except.ok false
    ∧ ((['a', 'a', 'a'] : List Char).drop 1).any exVowelLetter = true :=
  ⟨rfl, rfl, rfl⟩

/-- C6 amended: the consistency error is raised — never replaced by a
normal false — exactly when the checks that run before it succeed: the
word has two phonemes, vowel then non-vowel, passing the short-vowel
gate; under those conditions a vowel letter after the first letter makes
both `is_vc` and `is_cvc` raise the consistency error. -/
theorem c6_amended_consistency_error (t : Tables) (ivs isv : Phoneme → Bool)
    (ivl : Char → Bool) (w : List Char) (abd : List (List Char)) (ilv : Bool)
    (s0 s1 : Phoneme)
    (h : pylookup t.simplified_cmudict w = some [s0, s1])
    (h0 : ivs s0 = true) (h1 : ivs s1 = false)
    (h2 : ilv = true ∨ only_short_vowels t ivs isv w = true)
    (h3 : (w.drop 1).any ivl = true) :
    is_vc t ivs isv ivl w abd ilv = Except.error VcError.consistencyError
    ∧ is_cvc t ivs isv ivl w abd ilv = Except.error VcError.consistencyError := by
  have hvc : is_vc t ivs isv ivl w abd ilv = Except.error VcError.consistencyError := by
    unfold is_vc
    rw [h]
    rcases h2 with h2 | h2
    · simp [h0, h1, h2, h3]
      rw [← List.drop_one]
      exact List.any_eq_true.mp h3
    · simp [h0, h1, h2, h3]
      rw [← List.drop_one]
      exact List.any_eq_true.mp h3
  have hdup : is_cvc t ivs isv ivl w abd ilv = is_vc t ivs isv ivl w abd ilv := rfl
  exact ⟨hvc, hdup.trans hvc⟩

/-- C6 witness: the word `"ea"` (vowel letter in second position, two
phonemes vowel-then-consonant, short vowel) raises the consistency error
from both classifiers. -/
theorem c6_witness :
    is_vc tablesVC exVowelSound exShortVowelSound exVowelLetter
      ['e', 'a'] [] false = Except.error VcError.consistencyError
    ∧ is_cvc tablesVC exVowelSound exShortVowelSound exVowelLetter
      ['e', 'a'] [] false = Except.error VcError.consistencyError :=
  c6_amended_consistency_error tablesVC exVowelSound exShortVowelSound
    exVowelLetter ['e', 'a'] [] false "AE" "T" rfl rfl rfl (Or.inr rfl) rfl

/-! Claim C7: the UNDECODABLE segment is unique, terminal for the body
stage, and absorbing. -/

theorem list_split_after {α : Type} (u : α) (ks : List α) :
    ∀ rest l1 l2 : List α, u ∉ ks → ks ++ rest = l1 ++ u :: l2 →
      ∃ l1', rest = l1' ++ u :: l2 := by
  induction ks with
  | nil =>
    intro rest l1 l2 _ h
    exact ⟨l1, by simpa using h⟩
  | cons a ks' ih =>
    intro rest l1 l2 hu h
    cases l1 with
    | nil =>
      simp at h
      exact absurd (h.1 ▸ List.mem_cons_self a ks') hu
    | cons b l1' =>
      simp at h
      exact ih rest l1' l2 (fun hm => hu (List.mem_cons_of_mem a hm)) h.2

theorem list_split_unique {α : Type} (u : α) (a : List α) :
    ∀ c l1 l2 : List α, u ∉ a → u ∉ c → a ++ u :: c = l1 ++ u :: l2 →
      l1 = a ∧ l2 = c := by
  induction a with
  | nil =>
    intro c l1 l2 _ hu2 h
    cases l1 with
    | nil =>
      simp at h
      exact ⟨rfl, h.symm⟩
    | cons b l1' =>
      simp at h
      obtain ⟨hb, hc⟩ := h
      exact absurd (hc ▸ List.mem_append_right l1' (List.mem_cons_self u l2)) hu2
  | cons x a' ih =>
    intro c l1 l2 hu1 hu2 h
    cases l1 with
    | nil =>
      simp at h
      exact absurd (h.1 ▸ List.mem_cons_self x a') hu1
    | cons y l1' =>
      simp at h
      obtain ⟨hxy, h'⟩ := h
      obtain ⟨h1, h2⟩ := ih c l1' l2 (fun hm => hu1 (List.mem_cons_of_mem x hm)) hu2 h'
      exact ⟨by rw [hxy, h1], h2⟩

theorem count_le_one_of_only_last {α : Type} [DecidableEq α] (u : α) :
    ∀ tail : List α, (∀ l1 l2, tail = l1 ++ u :: l2 → l2 = []) →
      tail.count u ≤ 1 := by
  intro tail
  induction tail with
  | nil => simp
  | cons a tl ih =>
    intro h
    by_cases ha : a = u
    · subst ha
      have : tl = [] := h [] tl rfl
      subst this
      simp
    · have h1 : tl.count u ≤ 1 :=
        ih (fun l1 l2 hh => h (a :: l1) l2 (by simp [hh]))
      rw [List.count_cons]
      simp [ha]
      omega

theorem process_affixes_state_fields
    (affixes : List (List Char × List (List Phoneme))) (atFront : Bool)
    (word : List Char) (ph : List Phoneme) :
    ∀ st : DecodeState,
      (process_affixes affixes atFront word ph st).2.indicators = st.indicators
      ∧ (process_affixes affixes atFront word ph st).2.letter_parts = st.letter_parts
      ∧ (process_affixes affixes atFront word ph st).2.sound_parts = st.sound_parts
      ∧ (process_affixes affixes atFront word ph st).2.decodable = st.decodable := by
  induction affixes with
  | nil => intro st; exact ⟨rfl, rfl, rfl, rfl⟩
  | cons a rest ih =>
    intro st
    obtain ⟨affix, affix_sounds⟩ := a
    unfold process_affixes
    cases hv : (if (if atFront then (affix.filter (fun c => c ≠ '-')).isPrefixOf word
        else (affix.filter (fun c => c ≠ '-')).isSuffixOf word)
        then findVariant atFront ph affix_sounds else none) with
    | some s =>
      simp only [hv]
      exact ih (applyAffix atFront affix s st)
    | none =>
      simp only [hv]
      exact ih st

/-- Step helper: if one iteration extended the indicators by a block `ks`
free of UNDECODABLE and kept decodable true, the loop tail properties
transfer. -/
theorem step_tail_helper (t : Tables) (n : Nat) (st st' : DecodeState)
    (ks : List Indicator)
    (hind : st'.indicators = st.indicators ++ ks)
    (hdec' : st'.decodable = true)
    (hks : Indicator.UNDECODABLE ∉ ks)
    (ih : ∀ s0 : DecodeState, s0.decodable = true →
      ∃ tail, (decodeLoop t n s0).indicators = s0.indicators ++ tail
        ∧ (∀ l1 l2, tail = l1 ++ Indicator.UNDECODABLE :: l2 → l2 = [])
        ∧ ((decodeLoop t n s0).decodable = false ↔ Indicator.UNDECODABLE ∈ tail)) :
    ∃ tail, (decodeLoop t n st').indicators = st.indicators ++ tail
      ∧ (∀ l1 l2, tail = l1 ++ Indicator.UNDECODABLE :: l2 → l2 = [])
      ∧ ((decodeLoop t n st').decodable = false ↔ Indicator.UNDECODABLE ∈ tail) := by
  obtain ⟨tail', h1, h2, h3⟩ := ih st' hdec'
  refine ⟨ks ++ tail', ?_, ?_, ?_⟩
  · rw [h1, hind, List.append_assoc]
  · intro l1 l2 hh
    obtain ⟨l1', hh'⟩ := list_split_after Indicator.UNDECODABLE ks tail' l1 l2 hks hh
    exact h2 l1' l2 hh'
  · rw [h3, List.mem_append]
    simp [hks]

/-- Body-loop invariant: starting from a decodable state, the loop only
appends indicators; UNDECODABLE can occur only as the very last appended
indicator, and it occurs iff decodable flipped to false. -/
theorem decodeLoop_indicators (t : Tables) :
    ∀ n, ∀ st : DecodeState, st.decodable = true →
      ∃ tail, (decodeLoop t n st).indicators = st.indicators ++ tail
        ∧ (∀ l1 l2, tail = l1 ++ Indicator.UNDECODABLE :: l2 → l2 = [])
        ∧ ((decodeLoop t n st).decodable = false ↔ Indicator.UNDECODABLE ∈ tail) := by
  intro n
  induction n with
  | zero =>
    intro st hdec
    refine ⟨[], by simp [decodeLoop], ?_, by simp [decodeLoop, hdec]⟩
    intro l1 l2 hh
    exact absurd hh (by simp)
  | succ n ih =>
    intro st hdec
    by_cases hnil : st.remaining_letters = []
    · rw [decodeLoop_nil t (n + 1) st hnil]
      refine ⟨[], by simp, ?_, by simp [hdec]⟩
      intro l1 l2 hh
      exact absurd hh (by simp)
    · have hstep : decodeLoop t (n + 1) st = decodeLoop t n (bodyStep t st) := by
        simp [decodeLoop, hnil]
      rw [hstep]
      refine bodyStep_cases t st hnil (fun st' =>
        ∃ tail, (decodeLoop t n st').indicators = st.indicators ++ tail
          ∧ (∀ l1 l2, tail = l1 ++ Indicator.UNDECODABLE :: l2 → l2 = [])
          ∧ ((decodeLoop t n st').decodable = false ↔ Indicator.UNDECODABLE ∈ tail))
        ?_ ?_ ?_ ?_ ?_
      · intro l s _
        refine step_tail_helper t n st _ [Indicator.LETTER_COMBO] rfl ?_ (by simp) ih
        exact hdec
      · intro c tl _ _
        refine step_tail_helper t n st _ [] (by simp) ?_ (by simp) ih
        exact hdec
      · intro tl _
        cases hd : firstSoundMatch (catLookup t.short_vowels 'e') st.remaining_sounds with
        | none =>
          refine step_tail_helper t n st _ [Indicator.SILENT_E] rfl ?_ (by simp) ih
          exact hdec
        | some s =>
          refine step_tail_helper t n st _
            [Indicator.SILENT_E, Indicator.SHORT_VOWEL] ?_ ?_ (by simp) ih
          · show (st.indicators ++ [Indicator.SILENT_E]) ++ [Indicator.SHORT_VOWEL]
              = st.indicators ++ [Indicator.SILENT_E, Indicator.SHORT_VOWEL]
            rw [List.append_assoc]
            rfl
          · exact hdec
      · intro c s i tl _ hcat
        obtain ⟨_, hne1, _⟩ := findCat4_sound t c st.remaining_sounds s i hcat
        refine step_tail_helper t n st _ [i] rfl ?_ (by simpa using hne1.symm) ih
        exact hdec
      · show ∃ tail, (decodeLoop t n (handle_undecodable st)).indicators
            = st.indicators ++ tail
          ∧ (∀ l1 l2, tail = l1 ++ Indicator.UNDECODABLE :: l2 → l2 = [])
          ∧ ((decodeLoop t n (handle_undecodable st)).decodable = false
            ↔ Indicator.UNDECODABLE ∈ tail)
        rw [decodeLoop_nil t n (handle_undecodable st) rfl]
        refine ⟨[Indicator.UNDECODABLE], rfl, ?_, by simp [handle_undecodable]⟩
        intro l1 l2 hh
        cases l1 with
        | nil => simpa using hh.symm
        | cons b l1' =>
          rw [List.cons_append] at hh
          have hlen := congrArg List.length hh
          simp at hlen

/-- C7: at most one UNDECODABLE segment is produced; everything after it
in the final indicator order is a (spliced suffix) LETTER_COMBO segment
and the word is marked not decodable; and `handle_undecodable` absorbs
ALL remaining letters as one letter part and all remaining phonemes as
one sound part, emptying both buffers. -/
theorem c7_undecodable_terminal (t : Tables) (w : List Char) (phon : List Phoneme) :
    ((decode t w phon).indicators.count Indicator.UNDECODABLE ≤ 1)
    ∧ (∀ l1 l2, (decode t w phon).indicators = l1 ++ Indicator.UNDECODABLE :: l2 →
        (∀ i ∈ l2, i = Indicator.LETTER_COMBO) ∧ (decode t w phon).decodable = false)
    ∧ (∀ st : DecodeState, handle_undecodable st =
        { st with
          decodable := false
          letter_parts := st.letter_parts ++ [st.remaining_letters]
          sound_parts := st.sound_parts ++ [st.remaining_sounds]
          indicators := st.indicators ++ [Indicator.UNDECODABLE]
          remaining_letters := []
          remaining_sounds := [] }) := by
  have hbs_ind : (decodeBodyStart t w phon).indicators = [] := by
    unfold decodeBodyStart
    rw [(process_affixes_state_fields _ _ _ _ _).1,
      (process_affixes_state_fields _ _ _ _ _).1]
    rfl
  have hbs_dec : (decodeBodyStart t w phon).decodable = true := by
    unfold decodeBodyStart
    rw [(process_affixes_state_fields _ _ _ _ _).2.2.2,
      (process_affixes_state_fields _ _ _ _ _).2.2.2]
    rfl
  obtain ⟨tail, hTail, hLast, hDec⟩ :=
    decodeLoop_indicators t (decodeBodyStart t w phon).remaining_letters.length
      (decodeBodyStart t w phon) hbs_dec
  rw [hbs_ind] at hTail
  simp only [List.nil_append] at hTail
  obtain ⟨msPre, _, _, hPreInds, _, _, _⟩ :=
    process_affixes_spec t.prefixes true w phon (initState w phon)
  obtain ⟨msSuf, _, _, hSufInds, _, _, _⟩ :=
    process_affixes_spec t.suffixes false w phon
      ((process_affixes t.prefixes true w phon (initState w phon)).2)
  have hPreNoU : Indicator.UNDECODABLE ∉ (prefixAcc t w phon).inds := by
    unfold prefixAcc
    rw [hPreInds]
    simp
  have hSufNoU : Indicator.UNDECODABLE ∉ (suffixAcc t w phon).inds := by
    unfold suffixAcc
    rw [hSufInds]
    simp
  have hSufLC : ∀ i ∈ (suffixAcc t w phon).inds, i = Indicator.LETTER_COMBO := by
    unfold suffixAcc
    rw [hSufInds]
    simp
  have hD : (decode t w phon).indicators
      = (prefixAcc t w phon).inds ++ tail ++ (suffixAcc t w phon).inds := by
    show (prefixAcc t w phon).inds
        ++ (decodeLoop t (decodeBodyStart t w phon).remaining_letters.length
          (decodeBodyStart t w phon)).indicators
        ++ (suffixAcc t w phon).inds
      = (prefixAcc t w phon).inds ++ tail ++ (suffixAcc t w phon).inds
    rw [hTail]
  have hDecEq : (decode t w phon).decodable
      = (decodeLoop t (decodeBodyStart t w phon).remaining_letters.length
        (decodeBodyStart t w phon)).decodable := rfl
  have hTailCount : tail.count Indicator.UNDECODABLE ≤ 1 :=
    count_le_one_of_only_last Indicator.UNDECODABLE tail hLast
  refine ⟨?_, ?_, fun st => rfl⟩
  · rw [hD]
    rw [List.count_append, List.count_append]
    have h0 : ((prefixAcc t w phon).inds).count Indicator.UNDECODABLE = 0 :=
      List.count_eq_zero.mpr hPreNoU
    have h1 : ((suffixAcc t w phon).inds).count Indicator.UNDECODABLE = 0 :=
      List.count_eq_zero.mpr hSufNoU
    omega
  · intro l1 l2 hsplit
    rw [hD, List.append_assoc] at hsplit
    by_cases hU : Indicator.UNDECODABLE ∈ tail
    · obtain ⟨t1, t2, ht⟩ := List.append_of_mem hU
      have ht2 : t2 = [] := hLast t1 t2 ht
      subst ht2
      have hUt1 : Indicator.UNDECODABLE ∉ t1 := by
        intro hmem
        obtain ⟨u1, u2, hu⟩ := List.append_of_mem hmem
        have : u2 ++ Indicator.UNDECODABLE :: [] = [] := by
          refine hLast u1 (u2 ++ Indicator.UNDECODABLE :: []) ?_
          rw [ht, hu]
          simp
        simp at this
      have hre : (prefixAcc t w phon).inds ++ (tail ++ (suffixAcc t w phon).inds)
          = ((prefixAcc t w phon).inds ++ t1) ++ Indicator.UNDECODABLE
            :: (suffixAcc t w phon).inds := by
        rw [ht]
        simp
      rw [hre] at hsplit
      have hnomem : Indicator.UNDECODABLE ∉ (prefixAcc t w phon).inds ++ t1 := by
        rw [List.mem_append]
        rintro (h | h)
        · exact hPreNoU h
        · exact hUt1 h
      obtain ⟨_, hl2⟩ := list_split_unique Indicator.UNDECODABLE
        ((prefixAcc t w phon).inds ++ t1) (suffixAcc t w phon).inds l1 l2
        hnomem hSufNoU hsplit
      refine ⟨?_, ?_⟩
      · rw [hl2]
        exact hSufLC
      · rw [hDecEq]
        exact hDec.mpr hU
    · exfalso
      have hmem : Indicator.UNDECODABLE
          ∈ (prefixAcc t w phon).inds ++ (tail ++ (suffixAcc t w phon).inds) := by
        rw [hsplit]
        simp
      rw [List.mem_append, List.mem_append] at hmem
      rcases hmem with h | h | h
      · exact hPreNoU h
      · exact hU h
      · exact hSufNoU h

/-- C7 witness: the word `"q"` is immediately undecodable; the theorem's
split implication applies at the concrete decomposition `[] ++
UNDECODABLE :: []` and yields `decodable = false`. -/
theorem c7_witness :
    (∀ i ∈ ([] : List Indicator), i = Indicator.LETTER_COMBO)
    ∧ (decode tablesQ ['q'] ["K"]).decodable = false :=
  (c7_undecodable_terminal tablesQ ['q'] ["K"]).2.1 [] [] (by rfl)

/-! Claim C4: sound-parts round trip. -/

theorem bodyStep_sound_conservation (t : Tables) (st : DecodeState)
    (hne : st.remaining_letters ≠ []) :
    ((bodyStep t st).sound_parts).flatten ++ (bodyStep t st).remaining_sounds
      = st.sound_parts.flatten ++ st.remaining_sounds := by
  refine bodyStep_cases t st hne (fun st' =>
    st'.sound_parts.flatten ++ st'.remaining_sounds
      = st.sound_parts.flatten ++ st.remaining_sounds) ?_ ?_ ?_ ?_ ?_
  · intro l s hfind
    obtain ⟨_, htake, _⟩ := findCombo_sound _ _ _ _ _ hfind
    show (st.sound_parts ++ [s]).flatten ++ st.remaining_sounds.drop s.length
      = st.sound_parts.flatten ++ st.remaining_sounds
    rw [List.flatten_append]
    simp only [List.flatten_cons, List.flatten_nil, List.append_nil]
    rw [List.append_assoc]
    congr 1
    nth_rewrite 1 [← htake]
    exact List.take_append_drop s.length st.remaining_sounds
  · intro c tl _ _
    rfl
  · intro tl _
    cases hd : firstSoundMatch (catLookup t.short_vowels 'e') st.remaining_sounds with
    | none =>
      show (st.sound_parts ++ [[]]).flatten ++ st.remaining_sounds.drop 0
        = st.sound_parts.flatten ++ st.remaining_sounds
      rw [List.flatten_append]
      simp
    | some s =>
      obtain ⟨htake, _⟩ := firstSoundMatch_sound _ _ _ hd
      show ((st.sound_parts ++ [[]]) ++ [s]).flatten
          ++ (st.remaining_sounds.drop 0).drop s.length
        = st.sound_parts.flatten ++ st.remaining_sounds
      rw [List.flatten_append, List.flatten_append]
      simp only [List.flatten_cons, List.flatten_nil, List.append_nil, List.drop_zero,
        List.nil_append, List.append_assoc]
      congr 1
      nth_rewrite 1 [← htake]
      exact List.take_append_drop s.length st.remaining_sounds
  · intro c s i tl _ hcat
    obtain ⟨htake, _, _⟩ := findCat4_sound t c st.remaining_sounds s i hcat
    show (st.sound_parts ++ [s]).flatten ++ st.remaining_sounds.drop s.length
      = st.sound_parts.flatten ++ st.remaining_sounds
    rw [List.flatten_append]
    simp only [List.flatten_cons, List.flatten_nil, List.append_nil]
    rw [List.append_assoc]
    congr 1
    nth_rewrite 1 [← htake]
    exact List.take_append_drop s.length st.remaining_sounds
  · show (st.sound_parts ++ [st.remaining_sounds]).flatten ++ []
      = st.sound_parts.flatten ++ st.remaining_sounds
    rw [List.flatten_append]
    simp

theorem decodeLoop_sound_conservation (t : Tables) :
    ∀ n st, ((decodeLoop t n st).sound_parts).flatten
        ++ (decodeLoop t n st).remaining_sounds
      = st.sound_parts.flatten ++ st.remaining_sounds := by
  intro n
  induction n with
  | zero => intro st; rfl
  | succ n ih =>
    intro st
    by_cases hnil : st.remaining_letters = []
    · rw [decodeLoop_nil t (n + 1) st hnil]
    · have hstep : decodeLoop t (n + 1) st = decodeLoop t n (bodyStep t st) := by
        simp [decodeLoop, hnil]
      rw [hstep, ih (bodyStep t st), bodyStep_sound_conservation t st hnil]

theorem decodeLoop_rs_empty_of_undec (t : Tables) :
    ∀ n st, st.decodable = true → (decodeLoop t n st).decodable = false →
      (decodeLoop t n st).remaining_sounds = [] := by
  intro n
  induction n with
  | zero =>
    intro st hdec hfalse
    rw [decodeLoop] at hfalse
    rw [hdec] at hfalse
    cases hfalse
  | succ n ih =>
    intro st hdec hfalse
    by_cases hnil : st.remaining_letters = []
    · rw [decodeLoop_nil t (n + 1) st hnil] at hfalse
      rw [hdec] at hfalse
      cases hfalse
    · have hstep : decodeLoop t (n + 1) st = decodeLoop t n (bodyStep t st) := by
        simp [decodeLoop, hnil]
      rw [hstep] at hfalse ⊢
      refine bodyStep_cases t st hnil (fun st' =>
        (decodeLoop t n st').decodable = false →
          (decodeLoop t n st').remaining_sounds = []) ?_ ?_ ?_ ?_ ?_ hfalse
      · intro l s _
        exact ih _ (by exact hdec)
      · intro c tl _ _
        exact ih _ (by exact hdec)
      · intro tl _
        cases firstSoundMatch (catLookup t.short_vowels 'e') st.remaining_sounds with
        | none => exact ih _ (by exact hdec)
        | some s => exact ih _ (by exact hdec)
      · intro c s i tl _ _
        exact ih _ (by exact hdec)
      · intro _
        rw [decodeLoop_nil t n (handle_undecodable st) rfl]
        rfl

theorem append_eq_drop {α : Type} (a b c : List α) (h : a ++ b = c) :
    b = c.drop a.length := by
  rw [← h, List.drop_left]

/-- With at most one matching prefix entry, the prefix sound parts are the
stripped front slice of the word phonemes: concatenating them with the
post-prefix remaining sounds restores the full phoneme sequence. -/
theorem prefix_sounds_split (t : Tables) (w : List Char) (phon : List Phoneme)
    (hpre : (prefixAcc t w phon).parts.length ≤ 1) :
    ((prefixAcc t w phon).sounds).flatten
      ++ (process_affixes t.prefixes true w phon (initState w phon)).2.remaining_sounds
    = phon := by
  obtain ⟨ms, h1, h2, _, h4, _, h6⟩ :=
    process_affixes_spec t.prefixes true w phon (initState w phon)
  unfold prefixAcc at hpre ⊢
  rw [h1] at hpre
  rw [h2, h4]
  rcases ms with _ | ⟨m, _ | ⟨m', ms''⟩⟩
  · rfl
  · have hsm : soundsMatchAt true phon m.2 = true := (h6 m (List.mem_cons_self _ _)).1
    have htake : phon.take m.2.length = m.2 := soundsMatchAt_front phon m.2 hsm
    show ([m].map Prod.snd).flatten
        ++ (applyAffix true m.1 m.2 (initState w phon)).remaining_sounds = phon
    simp only [List.map_cons, List.map_nil, List.flatten_cons, List.flatten_nil,
      List.append_nil]
    have : (applyAffix true m.1 m.2 (initState w phon)).remaining_sounds
        = phon.drop m.2.length := rfl
    rw [this]
    nth_rewrite 1 [← htake]
    exact List.take_append_drop m.2.length phon
  · simp at hpre

/-- With at most one matching suffix entry whose phoneme slice does not
overlap the prefix slice, the post-suffix remaining sounds plus the
suffix sound parts restore the post-prefix remaining sounds. -/
theorem suffix_sounds_split (t : Tables) (w : List Char) (phon : List Phoneme)
    (hpre : (prefixAcc t w phon).parts.length ≤ 1)
    (hsuf : (suffixAcc t w phon).parts.length ≤ 1)
    (hlen : ((prefixAcc t w phon).sounds).flatten.length
      + ((suffixAcc t w phon).sounds).flatten.length ≤ phon.length) :
    (decodeBodyStart t w phon).remaining_sounds
      ++ ((suffixAcc t w phon).sounds).flatten
    = (process_affixes t.prefixes true w phon (initState w phon)).2.remaining_sounds := by
  have hA := prefix_sounds_split t w phon hpre
  have hrs1 : (process_affixes t.prefixes true w phon (initState w phon)).2.remaining_sounds
      = phon.drop ((prefixAcc t w phon).sounds).flatten.length :=
    append_eq_drop _ _ _ hA
  obtain ⟨ms, h1, h2, _, h4, _, h6⟩ :=
    process_affixes_spec t.suffixes false w phon
      (process_affixes t.prefixes true w phon (initState w phon)).2
  unfold suffixAcc at hsuf hlen ⊢
  unfold decodeBodyStart
  rw [h1] at hsuf
  rw [h2] at hlen ⊢
  rw [h4]
  rcases ms with _ | ⟨m, _ | ⟨m', ms''⟩⟩
  · simp
  · have hsm : soundsMatchAt false phon m.2 = true := (h6 m (List.mem_cons_self _ _)).1
    have hslice : sliceFromNeg m.2.length phon = m.2 := soundsMatchAt_back phon m.2 hsm
    simp only [List.map_cons, List.map_nil, List.flatten_cons, List.flatten_nil,
      List.append_nil] at hlen ⊢
    show (applyAffix false m.1 m.2
        (process_affixes t.prefixes true w phon (initState w phon)).2).remaining_sounds
      ++ m.2
      = (process_affixes t.prefixes true w phon (initState w phon)).2.remaining_sounds
    have happ : (applyAffix false m.1 m.2
        (process_affixes t.prefixes true w phon (initState w phon)).2).remaining_sounds
        = sliceToNeg m.2.length
          (process_affixes t.prefixes true w phon (initState w phon)).2.remaining_sounds := rfl
    rw [happ, hrs1]
    set np := ((prefixAcc t w phon).sounds).flatten.length with hnp
    by_cases hzero : m.2.length = 0
    · have hm2 : m.2 = [] := List.length_eq_zero.mp hzero
      rw [hm2] at hslice ⊢
      unfold sliceFromNeg at hslice
      simp at hslice
      unfold sliceToNeg
      simp
      rw [hslice]
      simp
    · have hlphon : m.2.length ≤ phon.length := by omega
      have hnple : np ≤ phon.length := by omega
      unfold sliceToNeg
      rw [if_neg hzero]
      have hlendrop : (phon.drop np).length = phon.length - np := by simp
      rw [hlendrop]
      unfold sliceFromNeg at hslice
      rw [if_neg hzero] at hslice
      have hk : phon.length - np - m.2.length + np = phon.length - m.2.length := by omega
      have hdd : (phon.drop np).drop (phon.length - np - m.2.length)
          = phon.drop (phon.length - m.2.length) := by
        rw [List.drop_drop]
        congr 1
        omega
      nth_rewrite 2 [← List.take_append_drop (phon.length - np - m.2.length) (phon.drop np)]
      rw [hdd, hslice]
  · simp at hsuf

/-- C4 counterexample: with `decodable = true`, the word `"te"` with
dictionary phonemes `[T, B]` yields sound parts `[[T], []]` — the final
silent-E consumes the letter `e` and no phonemes, leaving `B` unconsumed
and unaccounted, so the concatenated sound parts miss part of the
dictionary phoneme sequence. -/
theorem c4_counterexample :
    (decode tablesTE ['t', 'e'] ["T", "B"]).decodable = true
    ∧ pylookup tablesTE.simplified_cmudict ['t', 'e'] = some ["T", "B"]
    ∧ ((decode tablesTE ['t', 'e'] ["T", "B"]).sound_parts).flatten = ["T"]
    ∧ ¬ ((decode tablesTE ['t', 'e'] ["T", "B"]).sound_parts).flatten = ["T", "B"] := by
  refine ⟨rfl, rfl, by rfl, ?_⟩
  intro h
  rw [show ((decode tablesTE ['t', 'e'] ["T", "B"]).sound_parts).flatten
    = ["T"] from rfl] at h
  cases h

/-- C4 amended: the sound round trip holds — for decodable words AND for
undecodable ones, whose trailing UNDECODABLE segment absorbs all
remaining phonemes verbatim — provided at most one prefix and one suffix
entry matched, their phoneme slices together fit inside the word's
phoneme sequence, and the body loop left no phoneme unconsumed when the
letters ran out (the counterexample shows a final silent E can leave
trailing phonemes unaccounted while decodable stays true). -/
theorem c4_amended_sound_round_trip (t : Tables) (w : List Char) (phon : List Phoneme)
    (hpre : (prefixAcc t w phon).parts.length ≤ 1)
    (hsuf : (suffixAcc t w phon).parts.length ≤ 1)
    (hlen : ((prefixAcc t w phon).sounds).flatten.length
      + ((suffixAcc t w phon).sounds).flatten.length ≤ phon.length)
    (hrem : (decodeLoop t (decodeBodyStart t w phon).remaining_letters.length
        (decodeBodyStart t w phon)).remaining_sounds = []
      ∨ (decode t w phon).decodable = false) :
    ((decode t w phon).sound_parts).flatten = phon := by
  have hbs_sp : (decodeBodyStart t w phon).sound_parts = [] := by
    unfold decodeBodyStart
    rw [(process_affixes_state_fields _ _ _ _ _).2.2.1,
      (process_affixes_state_fields _ _ _ _ _).2.2.1]
    rfl
  have hbs_dec : (decodeBodyStart t w phon).decodable = true := by
    unfold decodeBodyStart
    rw [(process_affixes_state_fields _ _ _ _ _).2.2.2,
      (process_affixes_state_fields _ _ _ _ _).2.2.2]
    rfl
  have hbody : ((decodeLoop t (decodeBodyStart t w phon).remaining_letters.length
        (decodeBodyStart t w phon)).sound_parts).flatten
      ++ (decodeLoop t (decodeBodyStart t w phon).remaining_letters.length
        (decodeBodyStart t w phon)).remaining_sounds
      = (decodeBodyStart t w phon).remaining_sounds := by
    have := decodeLoop_sound_conservation t
      (decodeBodyStart t w phon).remaining_letters.length (decodeBodyStart t w phon)
    rw [hbs_sp] at this
    simpa using this
  have hremnil : (decodeLoop t (decodeBodyStart t w phon).remaining_letters.length
      (decodeBodyStart t w phon)).remaining_sounds = [] := by
    rcases hrem with h | h
    · exact h
    · exact decodeLoop_rs_empty_of_undec t _ _ hbs_dec h
  rw [hremnil, List.append_nil] at hbody
  have hsplit : (decode t w phon).sound_parts
      = (prefixAcc t w phon).sounds
        ++ (decodeLoop t (decodeBodyStart t w phon).remaining_letters.length
          (decodeBodyStart t w phon)).sound_parts
        ++ (suffixAcc t w phon).sounds := rfl
  rw [hsplit, List.flatten_append, List.flatten_append, hbody]
  rw [List.append_assoc, suffix_sounds_split t w phon hpre hsuf hlen]
  exact prefix_sounds_split t w phon hpre

/-- C4 witness: the cleanly decodable word `"bat"` satisfies the amended
hypotheses and its sound parts concatenate to the full phoneme
sequence. -/
theorem c4_witness :
    ((decode tablesBAT ['b', 'a', 't'] ["B", "AE", "T"]).sound_parts).flatten
      = ["B", "AE", "T"] :=
  c4_amended_sound_round_trip tablesBAT ['b', 'a', 't'] ["B", "AE", "T"]
    (by decide) (by decide) (by decide) (Or.inl (by decide))

/-! Claim C1: letters round trip. -/

theorem erasesNA_refl : ∀ l : List Char, erasesNA l l = true := by
  intro l
  induction l with
  | nil => rfl
  | cons c l ih =>
    unfold erasesNA
    simp [ih]

theorem erasesNA_cons_keep (c : Char) (l out : List Char)
    (h : erasesNA l out = true) : erasesNA (c :: l) (c :: out) = true := by
  unfold erasesNA
  simp [h]

theorem erasesNA_cons_drop (c : Char) (l out : List Char)
    (hal : c.isAlpha = false) (h : erasesNA l out = true) :
    erasesNA (c :: l) out = true := by
  cases out with
  | nil =>
    unfold erasesNA
    simp [hal, h]
  | cons d out' =>
    unfold erasesNA
    simp [hal, h]

theorem erasesNA_append : ∀ a b c d : List Char,
    erasesNA a b = true → erasesNA c d = true → erasesNA (a ++ c) (b ++ d) = true := by
  intro a
  induction a with
  | nil =>
    intro b c d hab hcd
    cases b with
    | nil => simpa using hcd
    | cons x b' => simp [erasesNA] at hab
  | cons x a' ih =>
    intro b c d hab hcd
    cases b with
    | nil =>
      unfold erasesNA at hab
      simp only [Bool.and_eq_true] at hab
      obtain ⟨h1, h2⟩ := hab
      have hrec := ih [] c d h2 hcd
      simp only [List.nil_append] at hrec
      show erasesNA (x :: (a' ++ c)) d = true
      exact erasesNA_cons_drop x (a' ++ c) d (by simpa using h1) hrec
    | cons y b' =>
      unfold erasesNA at hab
      rcases (Bool.or_eq_true _ _).mp hab with h | h
      · obtain ⟨hxy, h2⟩ := (Bool.and_eq_true _ _).mp h
        have hxy' : x = y := by simpa using hxy
        subst hxy'
        exact erasesNA_cons_keep x _ _ (ih b' c d h2 hcd)
      · obtain ⟨hna, h2⟩ := (Bool.and_eq_true _ _).mp h
        have := ih (y :: b') c d h2 hcd
        exact erasesNA_cons_drop x _ _ (by simpa using hna) this

/-- With at most one total match, one affix pass either does nothing or
applies exactly one entry to the UNCHANGED input state; when the strip
checker passed, that entry is additionally hyphen-free and its strip was
exact. -/
theorem process_affixes_le_one_cases
    (affixes : List (List Char × List (List Phoneme))) (atFront : Bool)
    (word : List Char) (ph : List Phoneme) :
    ∀ st, ((process_affixes affixes atFront word ph st).1.parts).length ≤ 1 →
      ((process_affixes affixes atFront word ph st).1.parts = []
        ∧ (process_affixes affixes atFront word ph st).2 = st)
      ∨ (∃ a s, (process_affixes affixes atFront word ph st).1.parts = [a]
          ∧ (process_affixes affixes atFront word ph st).1.sounds = [s]
          ∧ (process_affixes affixes atFront word ph st).2 = applyAffix atFront a s st
          ∧ (atFront = true → (a.filter (fun c => c ≠ '-')).isPrefixOf word = true)
          ∧ (atFront = false → (a.filter (fun c => c ≠ '-')).isSuffixOf word = true)
          ∧ soundsMatchAt atFront ph s = true
          ∧ (affixStripOk affixes atFront word ph st = true →
              a.all (fun c => c ≠ '-') = true
              ∧ (applyAffix atFront a s st).remaining_letters.length + a.length
                = st.remaining_letters.length)) := by
  induction affixes with
  | nil =>
    intro st _
    exact Or.inl ⟨rfl, rfl⟩
  | cons e rest ih =>
    intro st hle
    obtain ⟨affix, affix_sounds⟩ := e
    unfold process_affixes at hle ⊢
    cases hv : (if (if atFront then (affix.filter (fun c => c ≠ '-')).isPrefixOf word
        else (affix.filter (fun c => c ≠ '-')).isSuffixOf word)
        then findVariant atFront ph affix_sounds else none) with
    | some s =>
      simp only [hv] at hle
      simp only [hv]
      simp only [List.length_cons] at hle
      have hrest0 : ((process_affixes rest atFront word ph
          (applyAffix atFront affix s st)).1.parts).length ≤ 1 := by omega
      have hrest := ih (applyAffix atFront affix s st) hrest0
      have hrestnil : (process_affixes rest atFront word ph
            (applyAffix atFront affix s st)).1.parts = []
          ∧ (process_affixes rest atFront word ph
            (applyAffix atFront affix s st)).2 = applyAffix atFront affix s st := by
        rcases hrest with h | ⟨a', s', hp, _, _, _⟩
        · exact h
        · exfalso
          have hz : ((process_affixes rest atFront word ph
              (applyAffix atFront affix s st)).1.parts).length = 0 := by omega
          rw [hp] at hz
          simp at hz
      have hmatch : (if atFront then (affix.filter (fun c => c ≠ '-')).isPrefixOf word
          else (affix.filter (fun c => c ≠ '-')).isSuffixOf word) = true := by
        by_contra hc
        rw [if_neg (by simpa using hc)] at hv
        cases hv
      rw [if_pos hmatch] at hv
      refine Or.inr ⟨affix, s, ?_, ?_, ?_, ?_, ?_, ?_, ?_⟩
      · simp [hrestnil.1]
      · obtain ⟨ms, hm1, hm2, _, _, _, _⟩ := process_affixes_spec rest atFront word ph
          (applyAffix atFront affix s st)
        have hms : ms = [] := by
          have hp := hrestnil.1
          rw [hm1] at hp
          simpa using hp
        rw [hms] at hm2
        simp at hm2
        simp [hm2]
      · exact hrestnil.2
      · intro hf
        rw [hf] at hmatch
        simpa using hmatch
      · intro hf
        rw [hf] at hmatch
        simpa using hmatch
      · exact (findVariant_sound atFront ph affix_sounds s hv).1
      · intro hok
        simp only [affixStripOk] at hok
        rw [if_pos hmatch] at hok
        rw [hv] at hok
        simp only [Bool.and_eq_true] at hok
        obtain ⟨⟨h3, h4⟩, _⟩ := hok
        refine ⟨h3, ?_⟩
        simpa using h4
    | none =>
      simp only [hv] at hle
      simp only [hv]
      have hres := ih st hle
      rcases hres with h | ⟨a, s, h1, h2, h3, h4, h5, h6, h7⟩
      · exact Or.inl h
      · refine Or.inr ⟨a, s, h1, h2, h3, h4, h5, h6, ?_⟩
        intro hok
        simp only [affixStripOk] at hok
        rw [hv] at hok
        exact h7 hok

/-- With the strip checker passed and at most one prefix match, the
prefix letter parts plus the post-prefix remaining letters reconstruct
the word. -/
theorem prefix_letters_split (t : Tables) (w : List Char) (phon : List Phoneme)
    (hok : affixStripOk t.prefixes true w phon (initState w phon) = true)
    (hcnt : (prefixAcc t w phon).parts.length ≤ 1) :
    ((prefixAcc t w phon).parts).flatten
      ++ (process_affixes t.prefixes true w phon (initState w phon)).2.remaining_letters
    = w := by
  have hcases := process_affixes_le_one_cases t.prefixes true w phon (initState w phon) hcnt
  rcases hcases with ⟨h1, h2⟩ | ⟨a, s, h1, h2, h3, h4, _, _, h7⟩
  · unfold prefixAcc
    rw [h1, h2]
    rfl
  · obtain ⟨hhyph, hexact⟩ := h7 hok
    have hfa : a.filter (fun c => c ≠ '-') = a := by
      refine List.filter_eq_self.mpr ?_
      intro c hc
      exact (List.all_eq_true.mp hhyph) c hc
    have hpre : a <+: w := by
      have hp := h4 rfl
      rw [hfa] at hp
      exact List.isPrefixOf_iff_prefix.mp hp
    have happ : (applyAffix true a s (initState w phon)).remaining_letters = lstrip w a := by
      show lstrip (initState w phon).remaining_letters (a.filter (fun c => c ≠ '-')) = lstrip w a
      rw [hfa]
      rfl
    have hexact' : (lstrip w a).length + a.length = w.length := by
      rw [happ] at hexact
      exact hexact
    have hdropeq : lstrip w a = w.drop a.length := lstrip_exact w a hpre hexact'
    have htake : w.take a.length = a := (List.prefix_iff_eq_take.mp hpre).symm
    unfold prefixAcc
    rw [h1, h3]
    simp only [List.flatten_cons, List.flatten_nil, List.append_nil]
    rw [happ, hdropeq]
    nth_rewrite 1 [← htake]
    exact List.take_append_drop a.length w

/-- With the strip checker passed and at most one suffix match, the
post-suffix remaining letters plus the suffix letter parts reconstruct
the pre-suffix remaining letters (a tail region of the word). -/
theorem suffix_letters_split_gen (suffixes : List (List Char × List (List Phoneme)))
    (w : List Char) (phon : List Phoneme) (st1 : DecodeState) (np : Nat)
    (hrl1 : st1.remaining_letters = w.drop np)
    (hok : affixStripOk suffixes false w phon st1 = true)
    (hcnt : ((process_affixes suffixes false w phon st1).1.parts).length ≤ 1) :
    (process_affixes suffixes false w phon st1).2.remaining_letters
      ++ ((process_affixes suffixes false w phon st1).1.parts).flatten
    = st1.remaining_letters := by
  have hcases := process_affixes_le_one_cases suffixes false w phon st1 hcnt
  rcases hcases with ⟨h1, h2⟩ | ⟨a, s, h1, h2, h3, _, h5, _, h7⟩
  · rw [h1, h2]
    simp
  · obtain ⟨hhyph, hexact⟩ := h7 hok
    have hfa : a.filter (fun c => c ≠ '-') = a := by
      refine List.filter_eq_self.mpr ?_
      intro c hc
      exact (List.all_eq_true.mp hhyph) c hc
    have hsuf : a <:+ w := by
      have hp := h5 rfl
      rw [hfa] at hp
      exact List.isSuffixOf_iff_suffix.mp hp
    have happ : (applyAffix false a s st1).remaining_letters
        = rstrip st1.remaining_letters a := by
      show rstrip st1.remaining_letters (a.filter (fun c => c ≠ '-'))
        = rstrip st1.remaining_letters a
      rw [hfa]
    rw [h1, h3, happ]
    simp only [List.flatten_cons, List.flatten_nil, List.append_nil]
    rw [happ] at hexact
    by_cases hzero : a.length = 0
    · have ha : a = [] := List.length_eq_zero.mp hzero
      subst ha
      have hstrip : rstrip st1.remaining_letters [] = st1.remaining_letters := by
        unfold rstrip
        have hpred : (fun c => ([] : List Char).contains c) = (fun _ : Char => false) := by
          funext c
          rfl
        rw [hpred]
        rw [List.dropWhile_eq_self_iff.mpr (by intro h; simp)]
        simp
      rw [hstrip]
      simp
    · have halen : a.length ≤ st1.remaining_letters.length := by omega
      have hrex : rstrip st1.remaining_letters a
          = st1.remaining_letters.take (st1.remaining_letters.length - a.length) :=
        rstrip_exact st1.remaining_letters a a.length halen hexact
      rw [hrex]
      obtain ⟨u, hu⟩ := hsuf
      have hulen : u.length = w.length - a.length := by
        have := congrArg List.length hu
        simp at this
        omega
      have hdropw : w.drop (w.length - a.length) = a := by
        rw [← hulen, ← hu]
        exact List.drop_left u a
      have hlen1 : st1.remaining_letters.length = w.length - np := by
        rw [hrl1]
        simp
      have hnp : np < w.length := by omega
      have halen' : a.length ≤ w.length - np := by
        rw [hrl1] at halen
        simpa using halen
      have hchunk : st1.remaining_letters.drop
          (st1.remaining_letters.length - a.length) = a := by
        rw [hrl1]
        have hl : (List.drop np w).length = w.length - np := by simp
        rw [hl, List.drop_drop]
        have harith : np + (w.length - np - a.length) = w.length - a.length := by omega
        rw [harith]
        exact hdropw
      nth_rewrite 3 [← List.take_append_drop
        (st1.remaining_letters.length - a.length) st1.remaining_letters]
      rw [hchunk]

/-- Body-loop letters invariant: with the per-step strip checker passing
and fuel at least the remaining letter count, the loop appends letter
parts whose concatenation is the remaining-letters region with only
non-alphabetic characters deleted, and it empties the buffer. -/
theorem decodeLoop_letters (t : Tables) :
    ∀ n, ∀ st : DecodeState, loopOk t n st = true →
      st.remaining_letters.length ≤ n →
      ∃ tailParts, (decodeLoop t n st).letter_parts = st.letter_parts ++ tailParts
        ∧ erasesNA st.remaining_letters tailParts.flatten = true
        ∧ (decodeLoop t n st).remaining_letters = [] := by
  intro n
  induction n with
  | zero =>
    intro st _ hlen
    have hnil : st.remaining_letters = [] := List.length_eq_zero.mp (Nat.le_zero.mp hlen)
    rw [decodeLoop_nil t 0 st hnil]
    exact ⟨[], (List.append_nil _).symm, by rw [hnil]; rfl, hnil⟩
  | succ n ih =>
    intro st hok hlen
    by_cases hnil : st.remaining_letters = []
    · rw [decodeLoop_nil t (n + 1) st hnil]
      exact ⟨[], (List.append_nil _).symm, by rw [hnil]; rfl, hnil⟩
    · have hsplitok : stepOk t st = true ∧ loopOk t n (bodyStep t st) = true := by
        unfold loopOk at hok
        rw [if_neg hnil] at hok
        exact (Bool.and_eq_true _ _).mp hok
      have hstep : decodeLoop t (n + 1) st = decodeLoop t n (bodyStep t st) := by
        simp [decodeLoop, hnil]
      rw [hstep]
      cases hA : chooseAction t st with
      | combo l s =>
        have hbody : bodyStep t st = applyCombo st l s := by
          unfold bodyStep
          rw [hA]
          rfl
        have hfind := chooseAction_combo t st l s hA
        obtain ⟨hpre, _, _⟩ := findCombo_sound _ _ _ _ _ hfind
        have hokc := hsplitok.1
        unfold stepOk at hokc
        rw [hA] at hokc
        obtain ⟨hlne, hexact⟩ := (Bool.and_eq_true _ _).mp hokc
        have hlne' : l ≠ [] := by
          intro hl
          rw [hl] at hlne
          simp at hlne
        have hexact' : (lstrip st.remaining_letters l).length + l.length
            = st.remaining_letters.length := by
          simpa using hexact
        have hdropeq : lstrip st.remaining_letters l
            = st.remaining_letters.drop l.length :=
          lstrip_exact _ _ hpre hexact'
        have hrl : (bodyStep t st).remaining_letters
            = st.remaining_letters.drop l.length := by
          rw [hbody]
          show lstrip st.remaining_letters l = _
          exact hdropeq
        have hlp : (bodyStep t st).letter_parts = st.letter_parts ++ [l] := by
          rw [hbody]
          rfl
        have hl1 : 1 ≤ l.length := by
          cases l with
          | nil => exact absurd rfl hlne'
          | cons _ _ => simp
        have hlen2 : (bodyStep t st).remaining_letters.length ≤ n := by
          rw [hrl]
          simp
          omega
        obtain ⟨tail, ht1, ht2, ht3⟩ := ih (bodyStep t st) hsplitok.2 hlen2
        refine ⟨l :: tail, ?_, ?_, ht3⟩
        · rw [ht1, hlp, List.append_assoc]
          rfl
        · have htake : st.remaining_letters.take l.length = l :=
            (List.prefix_iff_eq_take.mp hpre).symm
          rw [hrl] at ht2
          have hcomp := erasesNA_append l l (st.remaining_letters.drop l.length)
            tail.flatten (erasesNA_refl l) ht2
          show erasesNA st.remaining_letters (l ++ tail.flatten) = true
          nth_rewrite 1 [← List.take_append_drop l.length st.remaining_letters]
          rw [htake]
          exact hcomp
      | punct =>
        obtain ⟨c, tl, heq, hal⟩ := chooseAction_punct t st hnil hA
        have hbody : bodyStep t st
            = { st with remaining_letters := st.remaining_letters.drop 1 } := by
          unfold bodyStep
          rw [hA]
          rfl
        have hrl : (bodyStep t st).remaining_letters = tl := by
          rw [hbody]
          show st.remaining_letters.drop 1 = tl
          rw [heq]
          rfl
        have hlp : (bodyStep t st).letter_parts = st.letter_parts := by rw [hbody]
        have hlen2 : (bodyStep t st).remaining_letters.length ≤ n := by
          rw [hrl]
          rw [heq] at hlen
          simp at hlen
          omega
        obtain ⟨tail, ht1, ht2, ht3⟩ := ih (bodyStep t st) hsplitok.2 hlen2
        refine ⟨tail, by rw [ht1, hlp], ?_, ht3⟩
        rw [hrl] at ht2
        rw [heq]
        exact erasesNA_cons_drop c tl tail.flatten hal ht2
      | silentE dbl =>
        obtain ⟨tl, heq, _⟩ := chooseAction_silentE t st dbl hA
        have hokc := hsplitok.1
        unfold stepOk at hokc
        rw [hA] at hokc
        have hnone : dbl = none := by
          cases dbl with
          | none => rfl
          | some s => simp at hokc
        subst hnone
        have hbody : bodyStep t st
            = process_single_letter_sound st 'e' [] Indicator.SILENT_E := by
          unfold bodyStep
          rw [hA]
          rfl
        have hrl : (bodyStep t st).remaining_letters = tl := by
          rw [hbody, process_single_remaining, heq]
          rfl
        have hlp : (bodyStep t st).letter_parts = st.letter_parts ++ [['e']] := by
          rw [hbody]
          rfl
        have hlen2 : (bodyStep t st).remaining_letters.length ≤ n := by
          rw [hrl]
          rw [heq] at hlen
          simp at hlen
          omega
        obtain ⟨tail, ht1, ht2, ht3⟩ := ih (bodyStep t st) hsplitok.2 hlen2
        refine ⟨['e'] :: tail, ?_, ?_, ht3⟩
        · rw [ht1, hlp, List.append_assoc]
          rfl
        · rw [hrl] at ht2
          rw [heq]
          exact erasesNA_cons_keep 'e' tl tail.flatten ht2
      | category c s i =>
        obtain ⟨⟨tl, heq⟩, _⟩ := chooseAction_category t st c s i hA
        have hbody : bodyStep t st = process_single_letter_sound st c s i := by
          unfold bodyStep
          rw [hA]
          rfl
        have hrl : (bodyStep t st).remaining_letters = tl := by
          rw [hbody, process_single_remaining, heq]
          rfl
        have hlp : (bodyStep t st).letter_parts = st.letter_parts ++ [[c]] := by
          rw [hbody]
          rfl
        have hlen2 : (bodyStep t st).remaining_letters.length ≤ n := by
          rw [hrl]
          rw [heq] at hlen
          simp at hlen
          omega
        obtain ⟨tail, ht1, ht2, ht3⟩ := ih (bodyStep t st) hsplitok.2 hlen2
        refine ⟨[c] :: tail, ?_, ?_, ht3⟩
        · rw [ht1, hlp, List.append_assoc]
          rfl
        · rw [hrl] at ht2
          rw [heq]
          exact erasesNA_cons_keep c tl tail.flatten ht2
      | undecodable =>
        have hbody : bodyStep t st = handle_undecodable st := by
          unfold bodyStep
          rw [hA]
          rfl
        rw [hbody, decodeLoop_nil t n (handle_undecodable st) rfl]
        refine ⟨[st.remaining_letters], rfl, ?_, rfl⟩
        show erasesNA st.remaining_letters (st.remaining_letters ++ []) = true
        rw [List.append_nil]
        exact erasesNA_refl _

/-- C1 counterexample: the word `"bbb"` with the letter combination
`"bb"` is accepted by decode, but `lstrip` removes ALL leading characters
drawn from the pattern's character set, so all three `b`s are consumed
while the recorded letter part is only `"bb"`: the concatenation loses an
alphabetic character, refuting the round trip as stated. -/
theorem c1_counterexample :
    pylookup tablesBBB.simplified_cmudict ['b', 'b', 'b'] = some ["B"]
    ∧ (decode tablesBBB ['b', 'b', 'b'] ["B"]).letter_parts = [['b', 'b']]
    ∧ erasesNA ['b', 'b', 'b']
        (((decode tablesBBB ['b', 'b', 'b'] ["B"]).letter_parts).flatten) = false :=
  ⟨rfl, rfl, rfl⟩

/-- C1 amended: the letters round trip — concatenating all letter parts
(prefix + body + suffix order) yields the word with only non-alphabetic
characters deleted — holds PROVIDED every character-set strip
(`lstrip`/`rstrip`) removed exactly the matched pattern's length, matched
combination patterns are non-empty, no silent-E is followed by the
duplicated short-vowel re-match, at most one prefix and one suffix entry
matched, and affix keys contain no display hyphens (all of which the
executable checkers `affixStripOk`/`loopOk` certify). -/
theorem c1_amended_letters_round_trip (t : Tables) (w : List Char) (phon : List Phoneme)
    (hokP : affixStripOk t.prefixes true w phon (initState w phon) = true)
    (hcntP : (prefixAcc t w phon).parts.length ≤ 1)
    (hokS : affixStripOk t.suffixes false w phon
      (process_affixes t.prefixes true w phon (initState w phon)).2 = true)
    (hcntS : (suffixAcc t w phon).parts.length ≤ 1)
    (hloop : loopOk t (decodeBodyStart t w phon).remaining_letters.length
      (decodeBodyStart t w phon) = true) :
    erasesNA w (((decode t w phon).letter_parts).flatten) = true := by
  have hbs_lp : (decodeBodyStart t w phon).letter_parts = [] := by
    unfold decodeBodyStart
    rw [(process_affixes_state_fields _ _ _ _ _).2.1,
      (process_affixes_state_fields _ _ _ _ _).2.1]
    rfl
  obtain ⟨tail, ht1, ht2, _⟩ := decodeLoop_letters t
    (decodeBodyStart t w phon).remaining_letters.length (decodeBodyStart t w phon)
    hloop (Nat.le_refl _)
  rw [hbs_lp] at ht1
  simp only [List.nil_append] at ht1
  have hP := prefix_letters_split t w phon hokP hcntP
  have hrl1 : (process_affixes t.prefixes true w phon (initState w phon)).2.remaining_letters
      = w.drop ((prefixAcc t w phon).parts).flatten.length :=
    append_eq_drop _ _ _ hP
  have hS := suffix_letters_split_gen t.suffixes w phon
    (process_affixes t.prefixes true w phon (initState w phon)).2
    ((prefixAcc t w phon).parts).flatten.length hrl1 hokS hcntS
  have hflat : ((decode t w phon).letter_parts).flatten
      = ((prefixAcc t w phon).parts).flatten
        ++ (tail.flatten ++ ((suffixAcc t w phon).parts).flatten) := by
    show ((prefixAcc t w phon).parts
        ++ (decodeLoop t (decodeBodyStart t w phon).remaining_letters.length
          (decodeBodyStart t w phon)).letter_parts
        ++ (suffixAcc t w phon).parts).flatten = _
    rw [List.flatten_append, List.flatten_append, ht1, List.append_assoc]
  have hw : w = ((prefixAcc t w phon).parts).flatten
      ++ ((decodeBodyStart t w phon).remaining_letters
        ++ ((suffixAcc t w phon).parts).flatten) := by
    conv_lhs => rw [← hP]
    congr 1
    exact hS.symm
  have hmain : erasesNA
      (((prefixAcc t w phon).parts).flatten
        ++ ((decodeBodyStart t w phon).remaining_letters
          ++ ((suffixAcc t w phon).parts).flatten))
      (((prefixAcc t w phon).parts).flatten
        ++ (tail.flatten ++ ((suffixAcc t w phon).parts).flatten)) = true :=
    erasesNA_append _ _ _ _ (erasesNA_refl _)
      (erasesNA_append _ _ _ _ ht2 (erasesNA_refl _))
  rw [← hw] at hmain
  rw [hflat]
  exact hmain

/-- C1 witness: the cleanly decodable word `"bat"` (no affixes, no
combinations, every strip exact) satisfies every checker and its letter
parts concatenate back to the word. -/
theorem c1_witness :
    erasesNA ['b', 'a', 't']
      (((decode tablesBAT ['b', 'a', 't'] ["B", "AE", "T"]).letter_parts).flatten)
      = true :=
  c1_amended_letters_round_trip tablesBAT ['b', 'a', 't'] ["B", "AE", "T"]
    rfl (by decide) rfl (by decide) (by decide)

end WordDecoderModel
